import Mathlib

/-!
# Verification of the Left-Leaning Red-Black tree implementation

Shallow embedding of `LeftLeaningRedBlack.cpp` (2-3 mode: `USE_234_TREE`
undefined).  Nodes hold a `VoidRef_t` payload, which consists of a single
32-bit key; keys are modelled as `Nat` (the code performs only order
comparisons on keys, never arithmetic, so no wrap-around can occur).

Null pointers are modelled by the `nil` constructor.  Every function is
translated from the source; where the C++ short-circuits a null check
(`IsRed(p) && IsRed(p->pLeft)`), the total accessors below return the same
values, because `IsRed nil = false` and `nil.left = nil`.
-/

namespace LLRB

/-- `LLTB_t`: a tree node (key, color bit, child links), or the null pointer. -/
inductive LLTB where
  | nil  : LLTB
  | node : Nat → Bool → LLTB → LLTB → LLTB
deriving DecidableEq, Repr

namespace LLTB

/-- `pNode->pLeft` (defaulting to null for the null pointer). -/
def left : LLTB → LLTB
  | nil => nil
  | node _ _ l _ => l

/-- `pNode->pRight` (defaulting to null for the null pointer). -/
def right : LLTB → LLTB
  | nil => nil
  | node _ _ _ r => r

/-- `pNode->Ref.Key` (defaulting to 0 for the null pointer; every use site
in the translated code is guarded by a non-null check, as in the source). -/
def key : LLTB → Nat
  | nil => 0
  | node k _ _ _ => k

/-- `pNode->pLeft = x`. -/
def setLeft : LLTB → LLTB → LLTB
  | nil, _ => nil
  | node k c _ r, x => node k c x r

/-- `pNode->pRight = x`. -/
def setRight : LLTB → LLTB → LLTB
  | nil, _ => nil
  | node k c l _, x => node k c l x

/-- `pNode->Ref = ref` (overwrite the payload of a non-null node). -/
def setKey : LLTB → Nat → LLTB
  | nil, _ => nil
  | node _ c l r, k => node k c l r

/-- Number of nodes of the subtree (used as the termination measure for
the deletion routines, which recurse through rotated subtrees). -/
def size : LLTB → Nat
  | nil => 0
  | node _ _ l r => size l + size r + 1

end LLTB

open LLTB

/-- `IsRed(pNode)`: a null link is treated as black. -/
def IsRed : LLTB → Bool
  | .nil => false
  | .node _ c _ _ => c

/-- `pNode->IsRed = !pNode->IsRed` on a (possibly null) link, as done for the
children inside `ColorFlip`. -/
def ToggleColor : LLTB → LLTB
  | .nil => .nil
  | .node k c l r => .node k (!c) l r

/-- `RotateLeft(pNode)`: precondition `pNode->pRight != nullptr`; the new
subtree root takes the old root's color and the old root becomes red. -/
def RotateLeft : LLTB → LLTB
  | .node k c l (.node rk _ rl rr) => .node rk c (.node k true l rl) rr
  | t => t

/-- `RotateRight(pNode)`: mirror image of `RotateLeft`. -/
def RotateRight : LLTB → LLTB
  | .node k c (.node lk _ ll lr) r => .node lk c ll (.node k true lr r)
  | t => t

/-- `ColorFlip(pNode)`: toggle the color of the node and of both non-null
children. -/
def ColorFlip : LLTB → LLTB
  | .nil => .nil
  | .node k c l r => .node k (!c) (ToggleColor l) (ToggleColor r)

/-- `NewNode()` followed by `pNode->Ref = ref`: a fresh red leaf. -/
def NewNode (k : Nat) : LLTB := .node k true .nil .nil

/-- `InsertRec(pNode, ref)`: recursive insertion, 2-3 mode (the final color
flip is compiled in because `USE_234_TREE` is not defined in the source). -/
def InsertRec : LLTB → Nat → LLTB
  | .nil, k => NewNode k
  | .node nk nc nl nr, k =>
    let t :=
      if k = nk then
        -- duplicate key: `pNode->Ref = ref` overwrites the payload
        LLTB.node k nc nl nr
      else if k < nk then
        LLTB.node nk nc (InsertRec nl k) nr
      else
        LLTB.node nk nc nl (InsertRec nr k)
    let t := if IsRed t.right && !IsRed t.left then RotateLeft t else t
    let t := if IsRed t.left && IsRed t.left.left then RotateRight t else t
    let t := if IsRed t.left && IsRed t.right then ColorFlip t else t
    t

/-- `m_pRoot->IsRed = false` after the top-level insertion / deletion. -/
def SetBlack : LLTB → LLTB
  | .nil => .nil
  | .node k _ l r => .node k false l r

/-- The effect of the public `Insert(ref)` on the tree:
`m_pRoot = InsertRec(m_pRoot, ref); m_pRoot->IsRed = false`.
(The subsequent diagnostic printing does not modify the tree.) -/
def Insert (t : LLTB) (k : Nat) : LLTB := SetBlack (InsertRec t k)

/-- The value returned by the public `Insert`: the source ends with
`return true;` unconditionally. -/
def InsertReturn (_ : LLTB) (_ : Nat) : Bool := true

/-- `LookUp(key)`: iterative descent going left on `key < pNode->Ref.Key`
and right otherwise; the loop exits only at a null link and the function
then returns `nullptr` (modelled as `none`). -/
def LookUp : LLTB → Nat → Option Nat
  | .nil, _ => none
  | .node nk _ l r, k => if k < nk then LookUp l k else LookUp r k

/-- `MoveRedLeft(pNode)`. -/
def MoveRedLeft (t : LLTB) : LLTB :=
  let t := ColorFlip t
  if IsRed t.right.left then
    let t := t.setRight (RotateRight t.right)
    let t := RotateLeft t
    ColorFlip t
  else t

/-- `MoveRedRight(pNode)`. -/
def MoveRedRight (t : LLTB) : LLTB :=
  let t := ColorFlip t
  if IsRed t.left.left then ColorFlip (RotateRight t) else t

/-- `FindMin(pNode)`: follow left links to the node with the smallest key. -/
def FindMin : LLTB → LLTB
  | .nil => .nil
  | .node k c .nil r => .node k c .nil r
  | .node _ _ (.node lk lc ll lr) _ => FindMin (.node lk lc ll lr)

/-- `FixUp(pNode)`: rotate right-leaning reds, fix double left reds, split
4-nodes — applied on every frame on the way out of the deletion recursion. -/
def FixUp (t : LLTB) : LLTB :=
  let t := if IsRed t.right then RotateLeft t else t
  let t := if IsRed t.left && IsRed t.left.left then RotateRight t else t
  let t := if IsRed t.left && IsRed t.right then ColorFlip t else t
  t

theorem size_toggleColor (t : LLTB) : (ToggleColor t).size = t.size := by
  cases t <;> rfl

theorem size_rotateLeft (t : LLTB) : (RotateLeft t).size = t.size := by
  match t with
  | .nil => rfl
  | .node k c l .nil => rfl
  | .node k c l (.node rk rc rl rr) => simp [RotateLeft, LLTB.size]; omega

theorem size_rotateRight (t : LLTB) : (RotateRight t).size = t.size := by
  match t with
  | .nil => rfl
  | .node k c .nil r => rfl
  | .node k c (.node lk lc ll lr) r => simp [RotateRight, LLTB.size]; omega

theorem size_colorFlip (t : LLTB) : (ColorFlip t).size = t.size := by
  cases t with
  | nil => rfl
  | node k c l r => simp [ColorFlip, LLTB.size, size_toggleColor]

theorem size_moveRedLeft (t : LLTB) : (MoveRedLeft t).size = t.size := by
  rw [MoveRedLeft]
  split
  · cases h : ColorFlip t with
    | nil => simp [LLTB.setRight, size_rotateLeft, size_colorFlip, ← h]
    | node k c l r =>
      have := size_colorFlip t
      rw [h] at this
      simp [LLTB.setRight, LLTB.right, size_rotateLeft, size_colorFlip,
        LLTB.size, size_rotateRight] at this ⊢
      omega
  · exact size_colorFlip t

theorem size_moveRedRight (t : LLTB) : (MoveRedRight t).size = t.size := by
  rw [MoveRedRight]
  split
  · rw [size_colorFlip, size_rotateRight, size_colorFlip]
  · exact size_colorFlip t

theorem size_fixUp (t : LLTB) : (FixUp t).size = t.size := by
  simp only [FixUp]
  split <;> split <;> split <;>
    simp only [size_colorFlip, size_rotateLeft, size_rotateRight]

theorem size_pos_of_ne_nil {t : LLTB} (h : t ≠ .nil) : 0 < t.size := by
  cases t with
  | nil => exact absurd rfl h
  | node k c l r => simp [LLTB.size]

theorem ne_nil_of_size_pos {t : LLTB} (h : 0 < t.size) : t ≠ .nil := by
  intro hn
  rw [hn] at h
  simp [LLTB.size] at h

theorem left_size_lt {t : LLTB} (h : t ≠ .nil) : t.left.size < t.size := by
  cases t with
  | nil => exact absurd rfl h
  | node k c l r => simp [LLTB.left, LLTB.size]; omega

theorem right_size_lt {t : LLTB} (h : t ≠ .nil) : t.right.size < t.size := by
  cases t with
  | nil => exact absurd rfl h
  | node k c l r => simp [LLTB.right, LLTB.size]; omega

theorem left_lt_of_size_eq {a b : LLTB} (h : a.size = b.size)
    (hb : 0 < b.size) : a.left.size < b.size := by
  have ha : a ≠ .nil := ne_nil_of_size_pos (h ▸ hb)
  have := left_size_lt ha
  omega

theorem right_lt_of_size_eq {a b : LLTB} (h : a.size = b.size)
    (hb : 0 < b.size) : a.right.size < b.size := by
  have ha : a ≠ .nil := ne_nil_of_size_pos (h ▸ hb)
  have := right_size_lt ha
  omega

/-- `DeleteMin(pNode)`: remove the minimum of a non-null subtree.  When the
left child is null the node is "freed" and null returned (the right child,
null in every balanced tree, is dropped exactly as in the source). -/
def DeleteMin (t : LLTB) : LLTB :=
  match t with
  | .nil => .nil
  | .node _ _ .nil _ => .nil
  | .node k c (.node lk lc ll lr) r =>
    let t0 : LLTB := .node k c (.node lk lc ll lr) r
    let t1 := if !IsRed (LLTB.node lk lc ll lr) && !IsRed ll then
        MoveRedLeft t0 else t0
    FixUp (t1.setLeft (DeleteMin t1.left))
termination_by t.size
decreasing_by
  split
  · exact left_lt_of_size_eq (size_moveRedLeft _) (by simp [LLTB.size])
  · exact left_size_lt (by simp)

/-- `DeleteRec(pNode, key)`: recursive deletion (precondition: non-null). -/
def DeleteRec (t : LLTB) (key : Nat) : LLTB :=
  match t with
  | .nil => .nil
  | .node nk nc nl nr =>
    if key < nk then
      match hl : nl with
      | .nil => FixUp (.node nk nc nl nr)
      | .node _ _ _ _ =>
        let t0 : LLTB := .node nk nc nl nr
        let t1 := if !IsRed nl && !IsRed nl.left then MoveRedLeft t0 else t0
        FixUp (t1.setLeft (DeleteRec t1.left key))
    else
      let t2 := if IsRed nl then RotateRight (.node nk nc nl nr)
        else .node nk nc nl nr
      if key = t2.key ∧ t2.right = .nil then
        -- `Free(pNode); return nullptr;`
        .nil
      else
        match hr : t2.right with
        | .nil => FixUp t2
        | .node _ _ _ _ =>
          let t3 := if !IsRed t2.right && !IsRed t2.right.left then
              MoveRedRight t2 else t2
          if key = t3.key then
            FixUp ((t3.setRight (DeleteMin t3.right)).setKey
              (FindMin t3.right).key)
          else
            FixUp (t3.setRight (DeleteRec t3.right key))
termination_by t.size
decreasing_by
  · -- left recursion
    split
    · rw [hl]
      exact left_lt_of_size_eq (size_moveRedLeft _) (by simp [LLTB.size])
    · rw [hl]
      apply left_size_lt
      simp
  · -- right recursion
    repeat' split
    all_goals first
      | exact right_lt_of_size_eq
          (by rw [size_moveRedRight, size_rotateRight]) (by simp [LLTB.size])
      | exact right_lt_of_size_eq (size_moveRedRight _) (by simp [LLTB.size])
      | exact right_lt_of_size_eq (size_rotateRight _) (by simp [LLTB.size])
      | exact right_size_lt (by simp)

/-- The effect of the public `Delete(key)` on the tree: nothing on an empty
tree; otherwise run `DeleteRec` and force a surviving root black. -/
def Delete (t : LLTB) (key : Nat) : LLTB :=
  match t with
  | .nil => .nil
  | .node _ _ _ _ => SetBlack (DeleteRec t key)

/-- The in-order key sequence printed by `Traverse` / `TraverseRec`. -/
def TraverseKeys : LLTB → List Nat
  | .nil => []
  | .node k _ l r => TraverseKeys l ++ k :: TraverseKeys r

/-- `FindParent(tempPtr, ref)`, modelling undefined behaviour: `.error ()`
is returned whenever the function dereferences a null pointer (reading
`tempPtr->pLeft->Ref.Key` or `tempPtr->pRight->Ref.Key` through a null
link, or being called on a null `tempPtr`).  The `||` of the source
short-circuits, so the right child is only read when the left child's key
does not match. -/
def FindParentE : LLTB → Nat → Except Unit LLTB
  | .nil, _ => .error ()
  | .node nk nc l r, k =>
    match l with
    | .nil => .error ()
    | .node lk _ _ _ =>
      if lk = k then .ok (.node nk nc l r)
      else
        match r with
        | .nil => .error ()
        | .node rk _ _ _ =>
          if rk = k then .ok (.node nk nc l r)
          else if nk > k then FindParentE l k
          else FindParentE r k

/-- Whether the public `Insert` invokes `FindParent`: the source calls it
exactly when `m_pRoot->Ref.Key == ref.Key` is false after rebalancing. -/
def InsertInvokesFindParent (t : LLTB) (k : Nat) : Bool :=
  !((Insert t k).key = k)

/-- The keys of the nodes that `Free(pNode)` actually deallocates.  The
source recurses into both children and then executes
`pNode = nullptr; delete pNode;` — the local pointer is nulled before
`delete`, so the node itself is never deallocated. -/
def FreedKeys : LLTB → List Nat
  | .nil => []
  | .node _ _ l r => FreedKeys l ++ FreedKeys r ++ []

/-- `FreeAll()`: runs `Free(m_pRoot)` and sets `m_pRoot = nullptr`.
Returns the new root together with the keys of the deallocated nodes. -/
def FreeAll (t : LLTB) : LLTB × List Nat := (.nil, FreedKeys t)

/-! ## Structural invariants (executable checkers) -/

/-- All keys of the subtree satisfy a predicate. -/
def AllKeys (p : Nat → Bool) : LLTB → Bool
  | .nil => true
  | .node k _ l r => p k && AllKeys p l && AllKeys p r

/-- I1, *BST order*: at every node, all left keys are strictly smaller and
all right keys strictly larger (hence keys are unique). -/
def OrderedB : LLTB → Bool
  | .nil => true
  | .node k _ l r =>
    AllKeys (· < k) l && AllKeys (k < ·) r && OrderedB l && OrderedB r

/-- I3, *no right-leaning red*: at every node a red right child implies a
red left child. -/
def I3B : LLTB → Bool
  | .nil => true
  | .node _ _ l r => (!IsRed r || IsRed l) && I3B l && I3B r

/-- I4, *no two consecutive reds on the left spine*: at every node, not
(left red and left-left red). -/
def I4B : LLTB → Bool
  | .nil => true
  | .node _ _ l r => !(IsRed l && IsRed l.left) && I4B l && I4B r

/-- The number of black links on every root-to-null path, collected as a
list (one entry per null); a link into a null or black node counts as
black.  I5 holds when all entries are equal. -/
def BlackCounts : LLTB → List Nat
  | .nil => [0]
  | .node _ _ l r =>
    (BlackCounts l).map (· + if IsRed l then 0 else 1) ++
      (BlackCounts r).map (· + if IsRed r then 0 else 1)

/-- I5, *perfect black balance*, as an executable check. -/
def I5B (t : LLTB) : Bool :=
  match BlackCounts t with
  | [] => true
  | n :: rest => rest.all (· = n)

/-- Black height used in proofs: the number of black nodes on the path to
the leftmost null (including the node itself). -/
def BH : LLTB → Nat
  | .nil => 0
  | .node _ c l _ => BH l + (if c then 0 else 1)

/-- Recursive black balance: both subtrees balanced with equal `BH`. -/
def BalancedB : LLTB → Bool
  | .nil => true
  | .node _ _ l r => BalancedB l && BalancedB r && (BH l = BH r)

/-- Local 2-3 left-leaning structure: no red right child anywhere, and a
red node never has a red left child.  (Stronger than I3 ∧ I4; this is the
inductive invariant actually maintained by the 2-3-mode code.) -/
def OkB : LLTB → Bool
  | .nil => true
  | .node _ c l r => OkB l && OkB r && !IsRed r && (!c || !IsRed l)

/-- The full inductive invariant of reachable public states. -/
def InvB (t : LLTB) : Bool :=
  OrderedB t && OkB t && BalancedB t && !IsRed t

/-- Trees reachable from the empty tree by public operations. -/
inductive Reach : LLTB → Prop where
  | empty : Reach .nil
  | ins {t : LLTB} (k : Nat) : Reach t → Reach (Insert t k)
  | del {t : LLTB} (k : Nat) : Reach t → Reach (Delete t k)

/-- A public mutating operation. -/
inductive Op where
  | ins : Nat → Op
  | del : Nat → Op

/-- Run a sequence of public operations from the empty tree. -/
def RunOps (ops : List Op) : LLTB :=
  ops.foldl (fun t o => match o with | .ins k => Insert t k | .del k => Delete t k) .nil

/-- The reference model: the set of inserted-and-not-subsequently-deleted
keys of an operation sequence. -/
def ModelKeys (ops : List Op) : Finset Nat :=
  ops.foldl (fun s o => match o with | .ins k => insert k s | .del k => s.erase k) ∅

/-- The insertion fix-up triple exactly as §4.2 step 4 of the specification
orders it: (a) rotate-left when the right child is red and the left is not,
then (b) rotate-right when the left child and its left child are red, then
(c) color-flip when both children are red. -/
def InsertFixupTriple (t : LLTB) : LLTB :=
  let t := if IsRed t.right && !IsRed t.left then RotateLeft t else t
  let t := if IsRed t.left && IsRed t.left.left then RotateRight t else t
  let t := if IsRed t.left && IsRed t.right then ColorFlip t else t
  t

/-! ## Basic simp lemmas for the accessors -/

@[simp] theorem left_nil : (LLTB.nil).left = .nil := rfl
@[simp] theorem left_node (k : Nat) (c : Bool) (l r : LLTB) :
    (LLTB.node k c l r).left = l := rfl
@[simp] theorem right_nil : (LLTB.nil).right = .nil := rfl
@[simp] theorem right_node (k : Nat) (c : Bool) (l r : LLTB) :
    (LLTB.node k c l r).right = r := rfl
@[simp] theorem key_node (k : Nat) (c : Bool) (l r : LLTB) :
    (LLTB.node k c l r).key = k := rfl
@[simp] theorem setLeft_node (k : Nat) (c : Bool) (l r x : LLTB) :
    (LLTB.node k c l r).setLeft x = .node k c x r := rfl
@[simp] theorem setRight_node (k : Nat) (c : Bool) (l r x : LLTB) :
    (LLTB.node k c l r).setRight x = .node k c l x := rfl
@[simp] theorem setKey_node (k : Nat) (c : Bool) (l r : LLTB) (k' : Nat) :
    (LLTB.node k c l r).setKey k' = .node k' c l r := rfl
@[simp] theorem isRed_nil : IsRed .nil = false := rfl
@[simp] theorem isRed_node (k : Nat) (c : Bool) (l r : LLTB) :
    IsRed (.node k c l r) = c := rfl
@[simp] theorem toggleColor_nil : ToggleColor .nil = .nil := rfl
@[simp] theorem toggleColor_node (k : Nat) (c : Bool) (l r : LLTB) :
    ToggleColor (.node k c l r) = .node k (!c) l r := rfl
@[simp] theorem colorFlip_node (k : Nat) (c : Bool) (l r : LLTB) :
    ColorFlip (.node k c l r) = .node k (!c) (ToggleColor l) (ToggleColor r) := rfl
@[simp] theorem setBlack_nil : SetBlack .nil = .nil := rfl
@[simp] theorem setBlack_node (k : Nat) (c : Bool) (l r : LLTB) :
    SetBlack (.node k c l r) = .node k false l r := rfl
@[simp] theorem traverseKeys_nil : TraverseKeys .nil = [] := rfl
@[simp] theorem traverseKeys_node (k : Nat) (c : Bool) (l r : LLTB) :
    TraverseKeys (.node k c l r) = TraverseKeys l ++ k :: TraverseKeys r := rfl

theorem isRed_setBlack (t : LLTB) : IsRed (SetBlack t) = false := by
  cases t <;> rfl

/-! ## The rebalancing primitives preserve the in-order key sequence -/

theorem traverseKeys_toggleColor (t : LLTB) :
    TraverseKeys (ToggleColor t) = TraverseKeys t := by
  cases t <;> rfl

theorem traverseKeys_rotateLeft (t : LLTB) :
    TraverseKeys (RotateLeft t) = TraverseKeys t := by
  match t with
  | .nil => rfl
  | .node k c l .nil => rfl
  | .node k c l (.node rk rc rl rr) => simp [RotateLeft]

theorem traverseKeys_rotateRight (t : LLTB) :
    TraverseKeys (RotateRight t) = TraverseKeys t := by
  match t with
  | .nil => rfl
  | .node k c .nil r => rfl
  | .node k c (.node lk lc ll lr) r => simp [RotateRight]

theorem traverseKeys_colorFlip (t : LLTB) :
    TraverseKeys (ColorFlip t) = TraverseKeys t := by
  cases t with
  | nil => rfl
  | node k c l r => simp [traverseKeys_toggleColor]

theorem traverseKeys_setBlack (t : LLTB) :
    TraverseKeys (SetBlack t) = TraverseKeys t := by
  cases t <;> rfl

theorem traverseKeys_fixUp (t : LLTB) :
    TraverseKeys (FixUp t) = TraverseKeys t := by
  simp only [FixUp]
  split <;> split <;> split <;>
    simp only [traverseKeys_colorFlip, traverseKeys_rotateLeft, traverseKeys_rotateRight]

theorem traverseKeys_moveRedLeft (t : LLTB) :
    TraverseKeys (MoveRedLeft t) = TraverseKeys t := by
  rw [MoveRedLeft]
  split
  · cases h : ColorFlip t with
    | nil =>
      have := traverseKeys_colorFlip t
      rw [h] at this
      simp [LLTB.setRight, traverseKeys_colorFlip, traverseKeys_rotateLeft, ← this]
    | node k c l r =>
      have := traverseKeys_colorFlip t
      rw [h] at this
      rw [traverseKeys_colorFlip, traverseKeys_rotateLeft]
      simp only [setRight_node, right_node, traverseKeys_node, traverseKeys_rotateRight]
      simpa using this
  · exact traverseKeys_colorFlip t

theorem traverseKeys_moveRedRight (t : LLTB) :
    TraverseKeys (MoveRedRight t) = TraverseKeys t := by
  rw [MoveRedRight]
  split
  · rw [traverseKeys_colorFlip, traverseKeys_rotateRight, traverseKeys_colorFlip]
  · exact traverseKeys_colorFlip t

/-! ## Prop-level invariants -/

/-- Perfect black balance with explicit black height (number of black
nodes on every path from the node down to every null, the node itself
included). -/
inductive Bal : LLTB → Nat → Prop where
  | nil : Bal .nil 0
  | red {k : Nat} {l r : LLTB} {n : Nat} :
      Bal l n → Bal r n → Bal (.node k true l r) n
  | black {k : Nat} {l r : LLTB} {n : Nat} :
      Bal l n → Bal r n → Bal (.node k false l r) (n + 1)

/-- Local 2-3 left-leaning structure: no red right child anywhere, and a
red node has a black (or null) left child. -/
inductive Ok : LLTB → Prop where
  | nil : Ok .nil
  | red {k : Nat} {l r : LLTB} :
      Ok l → Ok r → IsRed l = false → IsRed r = false → Ok (.node k true l r)
  | black {k : Nat} {l r : LLTB} :
      Ok l → Ok r → IsRed r = false → Ok (.node k false l r)

/-- `Ok` except that the root, possibly red, may have a red left child:
the shape produced by `InsertRec` and by the top-level deletion frame
before the root is forced black. -/
inductive OkTop : LLTB → Prop where
  | nil : OkTop .nil
  | node {k : Nat} {c : Bool} {l r : LLTB} :
      Ok l → Ok r → IsRed r = false → OkTop (.node k c l r)

/-- Sorted strictly-ascending in-order key sequence (this is equivalent to
the BST-order invariant I1). -/
def Asc (t : LLTB) : Prop := List.Sorted (· < ·) (TraverseKeys t)

/-- The full invariant of reachable public states. -/
def Inv (t : LLTB) : Prop :=
  Asc t ∧ Ok t ∧ (∃ n, Bal t n) ∧ IsRed t = false

theorem Ok.rightBlack {k : Nat} {c : Bool} {l r : LLTB}
    (h : Ok (.node k c l r)) : IsRed r = false := by
  cases h <;> assumption

theorem Ok.leftOk {k : Nat} {c : Bool} {l r : LLTB}
    (h : Ok (.node k c l r)) : Ok l := by
  cases h <;> assumption

theorem Ok.rightOk {k : Nat} {c : Bool} {l r : LLTB}
    (h : Ok (.node k c l r)) : Ok r := by
  cases h <;> assumption

theorem Ok.leftBlackOfRed {k : Nat} {l r : LLTB}
    (h : Ok (.node k true l r)) : IsRed l = false := by
  cases h; assumption

theorem Ok.mk' {k : Nat} {c : Bool} {l r : LLTB} (hl : Ok l) (hr : Ok r)
    (hrb : IsRed r = false) (hlb : c = true → IsRed l = false) :
    Ok (.node k c l r) := by
  cases c
  · exact Ok.black hl hr hrb
  · exact Ok.red hl hr (hlb rfl) hrb

theorem Ok.okTop {t : LLTB} (h : Ok t) : OkTop t := by
  cases h with
  | nil => exact OkTop.nil
  | red hl hr _ hrb => exact OkTop.node hl hr hrb
  | black hl hr hrb => exact OkTop.node hl hr hrb

theorem Bal.node_elim {k : Nat} {c : Bool} {l r : LLTB} {n : Nat}
    (h : Bal (.node k c l r) n) :
    ∃ m, Bal l m ∧ Bal r m ∧ n = (if c then m else m + 1) := by
  cases h with
  | red hl hr => exact ⟨_, hl, hr, rfl⟩
  | black hl hr => exact ⟨_, hl, hr, rfl⟩

theorem Bal.black_pos {k : Nat} {l r : LLTB} {n : Nat}
    (h : Bal (.node k false l r) n) : 0 < n := by
  cases h; omega

/-! ## Equation lemmas for the deletion routines -/

theorem DeleteMin_nil : DeleteMin .nil = .nil := by
  rw [DeleteMin.eq_def]

theorem DeleteMin_noLeft (k : Nat) (c : Bool) (r : LLTB) :
    DeleteMin (.node k c .nil r) = .nil := by
  rw [DeleteMin.eq_def]

theorem DeleteMin_move {lk : Nat} {lc : Bool} {ll lr : LLTB} (k : Nat) (c : Bool) (r : LLTB)
    (h : (!IsRed (LLTB.node lk lc ll lr) && !IsRed ll) = true) :
    DeleteMin (.node k c (.node lk lc ll lr) r) =
      FixUp ((MoveRedLeft (.node k c (.node lk lc ll lr) r)).setLeft
        (DeleteMin (MoveRedLeft (.node k c (.node lk lc ll lr) r)).left)) := by
  rw [DeleteMin.eq_def]
  simp only [h, if_pos]

theorem DeleteMin_nomove {lk : Nat} {lc : Bool} {ll lr : LLTB} (k : Nat) (c : Bool) (r : LLTB)
    (h : ¬ (!IsRed (LLTB.node lk lc ll lr) && !IsRed ll) = true) :
    DeleteMin (.node k c (.node lk lc ll lr) r) =
      FixUp (.node k c (DeleteMin (.node lk lc ll lr)) r) := by
  rw [DeleteMin.eq_def]
  simp only [h, Bool.false_eq_true, if_false, left_node, setLeft_node]
theorem DeleteRec_nil (key : Nat) : DeleteRec .nil key = .nil := by
  rw [DeleteRec.eq_def]

theorem DeleteRec_left_nil {key nk : Nat} (nc : Bool) (nr : LLTB) (h : key < nk) :
    DeleteRec (.node nk nc .nil nr) key = FixUp (.node nk nc .nil nr) := by
  rw [DeleteRec.eq_def]
  simp only [h, if_pos]

theorem DeleteRec_left_move {key nk lk : Nat} {nc lc : Bool} {ll lr nr : LLTB}
    (h : key < nk)
    (hg : (!IsRed (LLTB.node lk lc ll lr) && !IsRed ll) = true) :
    DeleteRec (.node nk nc (.node lk lc ll lr) nr) key =
      FixUp ((MoveRedLeft (.node nk nc (.node lk lc ll lr) nr)).setLeft
        (DeleteRec (MoveRedLeft (.node nk nc (.node lk lc ll lr) nr)).left key)) := by
  rw [DeleteRec.eq_def]
  simp only [h, if_pos, left_node, hg]

theorem DeleteRec_left_nomove {key nk lk : Nat} {nc lc : Bool} {ll lr nr : LLTB}
    (h : key < nk)
    (hg : ¬ (!IsRed (LLTB.node lk lc ll lr) && !IsRed ll) = true) :
    DeleteRec (.node nk nc (.node lk lc ll lr) nr) key =
      FixUp (.node nk nc (DeleteRec (.node lk lc ll lr) key) nr) := by
  rw [DeleteRec.eq_def]
  simp only [h, if_pos, left_node, hg, Bool.false_eq_true, if_false, setLeft_node]

theorem DeleteRec_leaf {key nk : Nat} {nc : Bool} {nl nr : LLTB} {t2 : LLTB}
    (h : ¬ key < nk)
    (ht2 : (if IsRed nl = true then RotateRight (.node nk nc nl nr) else .node nk nc nl nr) = t2)
    (hk : key = t2.key ∧ t2.right = .nil) :
    DeleteRec (.node nk nc nl nr) key = .nil := by
  rw [DeleteRec.eq_def]
  dsimp only
  rw [if_neg h]
  simp only [ht2]
  rw [if_pos hk]

theorem DeleteRec_right_nil {key nk : Nat} {nc : Bool} {nl nr : LLTB} {t2 : LLTB}
    (h : ¬ key < nk)
    (ht2 : (if IsRed nl = true then RotateRight (.node nk nc nl nr) else .node nk nc nl nr) = t2)
    (hk : ¬ (key = t2.key ∧ t2.right = .nil))
    (hr : t2.right = .nil) :
    DeleteRec (.node nk nc nl nr) key = FixUp t2 := by
  rw [DeleteRec.eq_def]
  dsimp only
  rw [if_neg h]
  simp only [ht2]
  rw [if_neg hk]
  split
  · rfl
  · rename_i heq
    rw [ht2, hr] at heq
    cases heq

theorem DeleteRec_copy {key nk rk : Nat} {nc rc : Bool} {nl nr rl rr : LLTB} {t2 t3 : LLTB}
    (h : ¬ key < nk)
    (ht2 : (if IsRed nl = true then RotateRight (.node nk nc nl nr) else .node nk nc nl nr) = t2)
    (hk : ¬ (key = t2.key ∧ t2.right = .nil))
    (hr : t2.right = .node rk rc rl rr)
    (ht3 : (if (!IsRed t2.right && !IsRed t2.right.left) = true then MoveRedRight t2 else t2) = t3)
    (hkey : key = t3.key) :
    DeleteRec (.node nk nc nl nr) key =
      FixUp ((t3.setRight (DeleteMin t3.right)).setKey (FindMin t3.right).key) := by
  rw [DeleteRec.eq_def]
  dsimp only
  rw [if_neg h]
  simp only [ht2]
  rw [if_neg hk]
  split
  · rename_i heq
    rw [ht2, hr] at heq
    cases heq
  · simp only [ht3]
    rw [if_pos hkey]

theorem DeleteRec_right_rec {key nk rk : Nat} {nc rc : Bool} {nl nr rl rr : LLTB} {t2 t3 : LLTB}
    (h : ¬ key < nk)
    (ht2 : (if IsRed nl = true then RotateRight (.node nk nc nl nr) else .node nk nc nl nr) = t2)
    (hk : ¬ (key = t2.key ∧ t2.right = .nil))
    (hr : t2.right = .node rk rc rl rr)
    (ht3 : (if (!IsRed t2.right && !IsRed t2.right.left) = true then MoveRedRight t2 else t2) = t3)
    (hkey : ¬ key = t3.key) :
    DeleteRec (.node nk nc nl nr) key = FixUp (t3.setRight (DeleteRec t3.right key)) := by
  rw [DeleteRec.eq_def]
  dsimp only
  rw [if_neg h]
  simp only [ht2]
  rw [if_neg hk]
  split
  · rename_i heq
    rw [ht2, hr] at heq
    cases heq
  · simp only [ht3]
    rw [if_neg hkey]

/-! ## Sorted-list model of insertion -/

/-- Insertion into a sorted list without duplication: the list-level model
of `InsertRec`'s effect on the in-order key sequence. -/
def insKey (k : Nat) : List Nat → List Nat
  | [] => [k]
  | x :: xs => if k = x then x :: xs else if k < x then k :: x :: xs else x :: insKey k xs

theorem mem_insKey {a k : Nat} {l : List Nat} : a ∈ insKey k l ↔ a = k ∨ a ∈ l := by
  induction l with
  | nil => simp [insKey]
  | cons x xs ih =>
    rw [insKey]
    split
    · rename_i h
      subst h
      simp only [List.mem_cons]
      try tauto
    · split
      · simp only [List.mem_cons]
        try tauto
      · simp only [List.mem_cons, ih]
        try tauto

theorem sorted_insKey {k : Nat} {l : List Nat}
    (h : List.Sorted (· < ·) l) : List.Sorted (· < ·) (insKey k l) := by
  induction l with
  | nil => simp [insKey]
  | cons x xs ih =>
    rw [List.sorted_cons] at h
    rw [insKey]
    split
    · exact List.sorted_cons.2 h
    · split
      · rename_i hne hlt
        refine List.sorted_cons.2 ⟨?_, List.sorted_cons.2 h⟩
        intro b hb
        rcases List.mem_cons.1 hb with hb | hb
        · omega
        · have := h.1 b hb
          omega
      · rename_i hne hlt
        refine List.sorted_cons.2 ⟨?_, ih h.2⟩
        intro b hb
        rcases mem_insKey.1 hb with hb | hb
        · omega
        · exact h.1 b hb

theorem insKey_append_left {k nk : Nat} (L R : List Nat) (h : k < nk) :
    insKey k (L ++ nk :: R) = insKey k L ++ nk :: R := by
  induction L with
  | nil => simp [insKey, Nat.ne_of_lt h, h]
  | cons x xs ih =>
    simp only [List.cons_append, insKey, List.append_eq]
    split
    · rfl
    · split
      · rfl
      · rw [ih]
        rfl

theorem insKey_append_right {k nk : Nat} (L R : List Nat) (h : nk < k)
    (hL : ∀ a ∈ L, a < k) :
    insKey k (L ++ nk :: R) = L ++ nk :: insKey k R := by
  induction L with
  | nil => simp [insKey, Nat.ne_of_gt h, Nat.not_lt_of_gt h]
  | cons x xs ih =>
    have hx : x < k := hL x (by simp)
    have ih' := ih (fun a ha => hL a (by simp [ha]))
    simp only [List.cons_append, insKey, Nat.ne_of_gt hx, Nat.not_lt_of_gt hx,
      if_false, ite_false, List.append_eq]
    rw [ih']

theorem insKey_append_self {k : Nat} (L R : List Nat) (hL : ∀ a ∈ L, a < k) :
    insKey k (L ++ k :: R) = L ++ k :: R := by
  induction L with
  | nil => simp [insKey]
  | cons x xs ih =>
    have hx : x < k := hL x (by simp)
    have ih' := ih (fun a ha => hL a (by simp [ha]))
    simp only [List.cons_append, insKey, Nat.ne_of_gt hx, Nat.not_lt_of_gt hx,
      if_false, ite_false, List.append_eq]
    rw [ih']

/-- Decompose sortedness of a node's traversal into the parts used by the
branch analyses. -/
theorem asc_node {k : Nat} {c : Bool} {l r : LLTB} (h : Asc (.node k c l r)) :
    Asc l ∧ Asc r ∧ (∀ a ∈ TraverseKeys l, a < k) ∧ (∀ a ∈ TraverseKeys r, k < a) := by
  unfold Asc at h ⊢
  rw [traverseKeys_node, List.Sorted, List.pairwise_append] at h
  obtain ⟨hl, hr, hcross⟩ := h
  rw [List.pairwise_cons] at hr
  exact ⟨hl, hr.2, fun a ha => hcross a ha k (by simp),
    fun a ha => hr.1 a ha⟩

theorem asc_node_of_parts {k : Nat} {c : Bool} {l r : LLTB}
    (hl : Asc l) (hr : Asc r) (hL : ∀ a ∈ TraverseKeys l, a < k)
    (hR : ∀ a ∈ TraverseKeys r, k < a) : Asc (.node k c l r) := by
  unfold Asc at *
  rw [traverseKeys_node, List.Sorted, List.pairwise_append]
  refine ⟨hl, List.pairwise_cons.2 ⟨hR, hr⟩, ?_⟩
  intro a ha b hb
  rcases List.mem_cons.1 hb with hb | hb
  · subst hb
    exact hL a ha
  · have h1 := hL a ha
    have h2 := hR b hb
    omega

/-! ## The effect of `InsertRec` on the key sequence -/

theorem traverseKeys_insertFixupTriple (u : LLTB) :
    TraverseKeys (InsertFixupTriple u) = TraverseKeys u := by
  simp only [InsertFixupTriple]
  split <;> split <;> split <;>
    simp only [traverseKeys_colorFlip, traverseKeys_rotateLeft, traverseKeys_rotateRight]

theorem insertRec_node (nk : Nat) (nc : Bool) (nl nr : LLTB) (k : Nat) :
    InsertRec (.node nk nc nl nr) k =
      InsertFixupTriple
        (if k = nk then .node k nc nl nr
         else if k < nk then .node nk nc (InsertRec nl k) nr
         else .node nk nc nl (InsertRec nr k)) := rfl

theorem traverseKeys_insertRec (t : LLTB) (k : Nat) (hs : Asc t) :
    TraverseKeys (InsertRec t k) = insKey k (TraverseKeys t) := by
  induction t with
  | nil => rfl
  | node nk nc nl nr ihl ihr =>
    obtain ⟨hsl, hsr, hL, hR⟩ := asc_node hs
    rcases Nat.lt_trichotomy k nk with hlt | heq | hgt
    · rw [insertRec_node, if_neg (Nat.ne_of_lt hlt), if_pos hlt,
        traverseKeys_insertFixupTriple]
      simp only [traverseKeys_node, ihl hsl]
      rw [insKey_append_left _ _ hlt]
    · subst heq
      rw [insertRec_node, if_pos rfl, traverseKeys_insertFixupTriple]
      simp only [traverseKeys_node]
      rw [insKey_append_self _ _ hL]
    · rw [insertRec_node, if_neg (Nat.ne_of_gt hgt),
        if_neg (Nat.not_lt_of_gt hgt), traverseKeys_insertFixupTriple]
      simp only [traverseKeys_node, ihr hsr]
      rw [insKey_append_right _ _ hgt (fun a ha => lt_trans (hL a ha) hgt)]

/-! ## Helper lemmas about colors, `Ok` and `Bal` -/

theorem Ok.leftBlackOfRed' {t : LLTB} (h : Ok t) (hr : IsRed t = true) :
    IsRed t.left = false := by
  cases h with
  | nil => cases hr
  | red _ _ hl _ => exact hl
  | black => cases hr

theorem Ok.rightBlack' {t : LLTB} (h : Ok t) : IsRed t.right = false := by
  cases h with
  | nil => rfl
  | red _ _ _ hr => exact hr
  | black _ _ hr => exact hr

theorem Ok.toggleRed {t : LLTB} (h : Ok t) (hr : IsRed t = true) :
    Ok (ToggleColor t) := by
  cases h with
  | nil => cases hr
  | red hl hr' hlb hrb => exact Ok.black hl hr' hrb
  | black => cases hr

theorem isRed_toggleColor_of_red {t : LLTB} (h : IsRed t = true) :
    IsRed (ToggleColor t) = false := by
  cases t with
  | nil => cases h
  | node k c l r => simp_all

theorem OkTop.okOfBlack {t : LLTB} (h : OkTop t) (hb : IsRed t = false) : Ok t := by
  cases h with
  | nil => exact Ok.nil
  | node hl hr hrb =>
    rename_i k c l r
    cases c
    · exact Ok.black hl hr hrb
    · cases hb

theorem OkTop.leftOk' {t : LLTB} (h : OkTop t) : Ok t.left := by
  cases h with
  | nil => exact Ok.nil
  | node hl _ _ => exact hl

theorem OkTop.rightOk' {t : LLTB} (h : OkTop t) : Ok t.right := by
  cases h with
  | nil => exact Ok.nil
  | node _ hr _ => exact hr

theorem OkTop.rightBlackTop {t : LLTB} (h : OkTop t) : IsRed t.right = false := by
  cases h with
  | nil => rfl
  | node _ _ hrb => exact hrb

theorem red_node_decomp {t : LLTB} (h : IsRed t = true) :
    ∃ k l r, t = .node k true l r := by
  cases t with
  | nil => cases h
  | node k c l r =>
    cases c
    · cases h
    · exact ⟨k, l, r, rfl⟩

theorem bal_toggle_red {t : LLTB} {m : Nat} (hb : Bal t m) (hr : IsRed t = true) :
    Bal (ToggleColor t) (m + 1) := by
  cases hb with
  | nil => cases hr
  | red hl hr' => exact Bal.black hl hr'
  | black => cases hr

theorem bal_toggle_black {t : LLTB} {m : Nat} (hb : Bal t (m + 1))
    (hr : IsRed t = false) : Bal (ToggleColor t) m := by
  cases hb with
  | red hl hr' => cases hr
  | black hl hr' => exact Bal.red hl hr'

theorem isRed_false_and (t : LLTB) {u : LLTB} (h : IsRed u = false) :
    (IsRed t && IsRed u) = false := by rw [h, Bool.and_false]

theorem okBlackAnd {t : LLTB} (h : Ok t) : (IsRed t && IsRed t.left) = false := by
  cases hc : IsRed t
  · rfl
  · rw [Ok.leftBlackOfRed' h hc, Bool.and_false]

/-- The insertion fix-up triple is the identity whenever the left child is
locally well-formed and the right child is black: no condition fires. -/
theorem insertFixupTriple_id {nk : Nat} {nc : Bool} {nl nr : LLTB}
    (hlOk : Ok nl) (hrb : IsRed nr = false) :
    InsertFixupTriple (.node nk nc nl nr) = .node nk nc nl nr := by
  simp only [InsertFixupTriple, right_node, left_node, hrb, Bool.false_and,
    Bool.and_false, Bool.false_eq_true, if_false, okBlackAnd hlOk, ite_false]

/-! ## Structural contract of `InsertRec` -/

theorem insertRec_spec (t : LLTB) (k : Nat) : ∀ {n : Nat}, Ok t → Bal t n →
    OkTop (InsertRec t k) ∧ Bal (InsertRec t k) n ∧ InsertRec t k ≠ .nil ∧
      (IsRed t = false → Ok (InsertRec t k)) := by
  induction t with
  | nil =>
    intro n ho hb
    cases hb
    exact ⟨OkTop.node Ok.nil Ok.nil rfl, Bal.red Bal.nil Bal.nil,
      by simp [InsertRec, NewNode], fun _ => Ok.red Ok.nil Ok.nil rfl rfl⟩
  | node nk nc nl nr ihl ihr =>
    intro n ho hb
    have hlOk : Ok nl := ho.leftOk
    have hrOk : Ok nr := ho.rightOk
    have hrb : IsRed nr = false := ho.rightBlack
    have hlb : nc = true → IsRed nl = false := by
      intro hc
      subst hc
      exact ho.leftBlackOfRed
    obtain ⟨m, bl, br, hn⟩ := hb.node_elim
    rcases Nat.lt_trichotomy k nk with hlt | heq | hgt
    · -- recurse left
      rw [insertRec_node, if_neg (Nat.ne_of_lt hlt), if_pos hlt]
      obtain ⟨hT, hB, hne, hOkIfB⟩ := ihl (n := m) hlOk bl
      set u := InsertRec nl k with hu
      cases hcu : IsRed u with
      | false =>
        have hOku : Ok u := hT.okOfBlack hcu
        rw [insertFixupTriple_id hOku hrb]
        refine ⟨OkTop.node hOku hrOk hrb, ?_, by simp, fun _ => Ok.mk' hOku hrOk hrb ?_⟩
        · cases nc <;> simp at hn <;> subst hn
          · exact Bal.black hB br
          · exact Bal.red hB br
        · intro
          exact hcu
      | true =>
        obtain ⟨uk, ul, ur, hud⟩ := red_node_decomp hcu
        have hOkul : Ok ul := by
          have := hT.leftOk'
          rwa [hud] at this
        have hOkur : Ok ur := by
          have := hT.rightOk'
          rwa [hud] at this
        have hurb : IsRed ur = false := by
          have := hT.rightBlackTop
          rwa [hud] at this
        obtain ⟨mu⟩ : ∃ mu, True := ⟨0, trivial⟩
        have hBul : Bal ul m ∧ Bal ur m := by
          rw [hud] at hB
          cases hB with
          | red h1 h2 => exact ⟨h1, h2⟩
        cases hul : IsRed ul with
        | false =>
          have hOku : Ok u := by
            rw [hud]
            exact Ok.red hOkul hOkur hul hurb
          rw [insertFixupTriple_id hOku hrb]
          refine ⟨OkTop.node hOku hrOk hrb, ?_, by simp, fun hnc => ?_⟩
          · cases nc <;> simp at hn <;> subst hn
            · exact Bal.black hB br
            · exact Bal.red hB br
          · exact Ok.mk' hOku hrOk hrb (by intro h; rw [h] at hnc; cases hnc)
        | true =>
          -- red-red on the left: rotate right then color flip
          have hnl : IsRed nl = true := by
            by_contra hc
            have hOku := hOkIfB (by revert hc; cases IsRed nl <;> simp)
            rw [hud] at hOku
            cases hOku with
            | red _ _ hlb2 _ =>
              rw [hlb2] at hul
              cases hul
          have hnc : nc = false := by
            by_contra hc
            have := hlb (by revert hc; cases nc <;> simp)
            rw [this] at hnl
            cases hnl
          subst hnc
          rw [hud]
          simp only [InsertFixupTriple, right_node, left_node, hrb, Bool.false_and,
            Bool.and_false, Bool.false_eq_true, if_false, isRed_node, hul,
            Bool.and_self, Bool.and_true, ite_false, ite_true, if_true,
            RotateRight, ColorFlip, toggleColor_node]
          obtain ⟨hBul', hBur'⟩ := hBul
          obtain ⟨ulk, ull, ulr, huld⟩ := red_node_decomp hul
          have h1 : IsRed (ToggleColor ul) = false := isRed_toggleColor_of_red hul
          have h2 : Ok (ToggleColor ul) := hOkul.toggleRed hul
          have h3 : Bal (ToggleColor ul) (m + 1) := bal_toggle_red hBul' hul
          simp at hn
          subst hn
          refine ⟨OkTop.node h2 (Ok.black hOkur hrOk hrb) rfl,
            Bal.red h3 (Bal.black hBur' br), by simp, fun _ =>
            Ok.red h2 (Ok.black hOkur hrOk hrb) h1 rfl⟩
    · -- duplicate key: overwrite, fix-ups are the identity
      subst heq
      rw [insertRec_node, if_pos rfl, insertFixupTriple_id hlOk hrb]
      refine ⟨ho.okTop, ?_, by simp, fun _ => ho⟩
      cases nc <;> simp at hn <;> subst hn
      · exact Bal.black bl br
      · exact Bal.red bl br
    · -- recurse right
      rw [insertRec_node, if_neg (Nat.ne_of_gt hgt), if_neg (Nat.not_lt_of_gt hgt)]
      obtain ⟨hT, hB, hne, hOkIfB⟩ := ihr (n := m) hrOk br
      set u := InsertRec nr k with hu
      have hOku : Ok u := hOkIfB hrb
      cases hcu : IsRed u with
      | false =>
        rw [insertFixupTriple_id hlOk hcu]
        refine ⟨OkTop.node hlOk hOku hcu, ?_, by simp, fun hnc => ?_⟩
        · cases nc <;> simp at hn <;> subst hn
          · exact Bal.black bl hB
          · exact Bal.red bl hB
        · exact Ok.mk' hlOk hOku hcu (by intro h; rw [h] at hnc; cases hnc)
      | true =>
        obtain ⟨uk, ul, ur, hud⟩ := red_node_decomp hcu
        have hOkul : Ok ul := by have := hT.leftOk'; rwa [hud] at this
        have hOkur : Ok ur := by have := hT.rightOk'; rwa [hud] at this
        have hurb : IsRed ur = false := by have := hT.rightBlackTop; rwa [hud] at this
        have hulb : IsRed ul = false := by
          have := hOku.leftBlackOfRed' hcu
          rwa [hud] at this
        have hBu : Bal ul m ∧ Bal ur m := by
          rw [hud] at hB
          cases hB with
          | red h1 h2 => exact ⟨h1, h2⟩
        obtain ⟨hBul, hBur⟩ := hBu
        cases hnl : IsRed nl with
        | false =>
          -- right-leaning red: rotate left
          rw [hud]
          simp only [InsertFixupTriple, right_node, left_node, isRed_node, hnl,
            Bool.not_false, Bool.and_true, Bool.true_and, ite_true, if_true,
            RotateLeft, hulb, hurb, Bool.and_false, Bool.false_eq_true, ite_false,
            Bool.and_self]
          refine ⟨OkTop.node (Ok.red hlOk hOkul hnl hulb) hOkur hurb, ?_, by simp,
            fun hnc => ?_⟩
          · cases nc <;> simp at hn <;> subst hn
            · exact Bal.black (Bal.red bl hBul) hBur
            · exact Bal.red (Bal.red bl hBul) hBur
          · exact Ok.mk' (Ok.red hlOk hOkul hnl hulb) hOkur hurb
              (by intro h; rw [h] at hnc; cases hnc)
        | true =>
          -- both children red: color flip
          have hnc : nc = false := by
            by_contra hc
            have := hlb (by revert hc; cases nc <;> simp)
            rw [this] at hnl
            cases hnl
          subst hnc
          have hb4 : IsRed nl.left = false := hlOk.leftBlackOfRed' hnl
          simp only [InsertFixupTriple, right_node, left_node, isRed_node, hnl, hcu,
            hb4, Bool.not_true, Bool.and_false, Bool.false_and, Bool.true_and,
            Bool.and_true, Bool.and_self, Bool.false_eq_true, if_false, ite_false,
            ite_true, if_true, colorFlip_node, toggleColor_node]
          obtain ⟨nlk, nll, nlr, hnld⟩ := red_node_decomp hnl
          have h1 : IsRed (ToggleColor nl) = false := isRed_toggleColor_of_red hnl
          have h2 : Ok (ToggleColor nl) := hlOk.toggleRed hnl
          have h3 : Bal (ToggleColor nl) (m + 1) := bal_toggle_red bl hnl
          have h4 : IsRed (ToggleColor u) = false := isRed_toggleColor_of_red hcu
          have h5 : Ok (ToggleColor u) := hOku.toggleRed hcu
          have h6 : Bal (ToggleColor u) (m + 1) := bal_toggle_red hB hcu
          simp at hn
          subst hn
          exact ⟨OkTop.node h2 h5 h4, Bal.red h3 h6, by simp, fun _ =>
            Ok.red h2 h5 h1 h4⟩

/-! ## Invariant preservation by the public `Insert` -/

theorem bal_setBlack {t : LLTB} {n : Nat} (h : Bal t n) :
    ∃ m, Bal (SetBlack t) m := by
  cases h with
  | nil => exact ⟨0, Bal.nil⟩
  | red hl hr => exact ⟨_, Bal.black hl hr⟩
  | black hl hr => exact ⟨_, Bal.black hl hr⟩

theorem ok_setBlack {t : LLTB} (h : OkTop t) : Ok (SetBlack t) := by
  cases h with
  | nil => exact Ok.nil
  | node hl hr hrb => exact Ok.black hl hr hrb

theorem setBlack_of_black {t : LLTB} (h : IsRed t = false) : SetBlack t = t := by
  cases t with
  | nil => rfl
  | node k c l r =>
    simp only [isRed_node] at h
    rw [h]
    rfl

theorem Inv_insert {t : LLTB} (k : Nat) (h : Inv t) :
    Inv (Insert t k) ∧ TraverseKeys (Insert t k) = insKey k (TraverseKeys t) := by
  obtain ⟨hs, ho, ⟨n, hb⟩, _⟩ := h
  obtain ⟨hT, hB, _, _⟩ := insertRec_spec t k ho hb
  have hkeys : TraverseKeys (Insert t k) = insKey k (TraverseKeys t) := by
    rw [Insert, traverseKeys_setBlack, traverseKeys_insertRec t k hs]
  refine ⟨⟨?_, ok_setBlack hT, bal_setBlack hB, isRed_setBlack _⟩, hkeys⟩
  unfold Asc
  rw [hkeys]
  exact sorted_insKey hs

/-- Inserting a key that is already present is the identity on `InsertRec`:
the payload overwrite rewrites the same key, and no fix-up condition fires
in a locally well-formed tree. -/
theorem insertRec_id_of_mem (t : LLTB) (k : Nat) (hs : Asc t) (ho : Ok t)
    (hmem : k ∈ TraverseKeys t) : InsertRec t k = t := by
  induction t with
  | nil => cases hmem
  | node nk nc nl nr ihl ihr =>
    have hlOk : Ok nl := ho.leftOk
    have hrOk : Ok nr := ho.rightOk
    have hrb : IsRed nr = false := ho.rightBlack
    obtain ⟨hsl, hsr, hL, hR⟩ := asc_node hs
    rcases Nat.lt_trichotomy k nk with hlt | heq | hgt
    · have hkl : k ∈ TraverseKeys nl := by
        rw [traverseKeys_node] at hmem
        rcases List.mem_append.1 hmem with h1 | h1
        · exact h1
        · rcases List.mem_cons.1 h1 with h2 | h2
          · omega
          · have := hR k h2
            omega
      rw [insertRec_node, if_neg (Nat.ne_of_lt hlt), if_pos hlt, ihl hsl hlOk hkl,
        insertFixupTriple_id hlOk hrb]
    · subst heq
      rw [insertRec_node, if_pos rfl, insertFixupTriple_id hlOk hrb]
    · have hkr : k ∈ TraverseKeys nr := by
        rw [traverseKeys_node] at hmem
        rcases List.mem_append.1 hmem with h1 | h1
        · have := hL k h1
          omega
        · rcases List.mem_cons.1 h1 with h2 | h2
          · omega
          · exact h2
      rw [insertRec_node, if_neg (Nat.ne_of_gt hgt), if_neg (Nat.not_lt_of_gt hgt),
        ihr hsr hrOk hkr, insertFixupTriple_id hlOk hrb]

/-- Upsert idempotence at the `Inv` level. -/
theorem insert_insert_of_inv {t : LLTB} (k : Nat) (h : Inv t) :
    Insert (Insert t k) k = Insert t k := by
  obtain ⟨⟨hs1, ho1, _, hblack1⟩, hkeys⟩ := Inv_insert k h
  have hmem : k ∈ TraverseKeys (Insert t k) := by
    rw [hkeys]
    exact mem_insKey.2 (Or.inl rfl)
  rw [Insert, insertRec_id_of_mem _ _ hs1 ho1 hmem, setBlack_of_black hblack1]

/-! ## Shape lemmas for the deletion primitives -/

@[simp] theorem left_toggleColor (t : LLTB) : (ToggleColor t).left = t.left := by
  cases t <;> rfl

@[simp] theorem right_toggleColor (t : LLTB) : (ToggleColor t).right = t.right := by
  cases t <;> rfl

theorem bal_black_succ {t : LLTB} {m : Nat} (hb : Bal t m)
    (hblack : IsRed t = false) (hne : t ≠ .nil) : ∃ m', m = m' + 1 := by
  cases hb with
  | nil => exact absurd rfl hne
  | red => cases hblack
  | black => exact ⟨_, rfl⟩

theorem bal_zero_black {t : LLTB} (hb : Bal t 0) (hblack : IsRed t = false) :
    t = .nil := by
  cases hb with
  | nil => rfl
  | red => cases hblack

theorem traverseKeys_ne_nil {t : LLTB} (h : t ≠ .nil) : TraverseKeys t ≠ [] := by
  cases t with
  | nil => exact absurd rfl h
  | node k c l r => simp

theorem ok_toggle_of_black {t : LLTB} (h : Ok t) (hblack : IsRed t = false)
    (hllb : IsRed t.left = false) (hne : t ≠ .nil) :
    Ok (ToggleColor t) ∧ IsRed (ToggleColor t) = true := by
  cases h with
  | nil => exact absurd rfl hne
  | red => cases hblack
  | black hl hr hrb => exact ⟨Ok.red hl hr hllb hrb, rfl⟩

theorem bal_red_elim {k : Nat} {l r : LLTB} {n : Nat}
    (h : Bal (.node k true l r) n) : Bal l n ∧ Bal r n := by
  cases h with
  | red hl hr => exact ⟨hl, hr⟩

theorem bal_black_elim {k : Nat} {l r : LLTB} {n : Nat}
    (h : Bal (.node k false l r) (n + 1)) : Bal l n ∧ Bal r n := by
  cases h with
  | black hl hr => exact ⟨hl, hr⟩

/-- `MoveRedLeft`, simple case: when the flipped right child has a black
left child, the move is just the color flip. -/
theorem moveRedLeft_simple {k : Nat} {c : Bool} {l r : LLTB}
    (hrl : IsRed r.left = false) :
    MoveRedLeft (.node k c l r) = .node k (!c) (ToggleColor l) (ToggleColor r) := by
  rw [MoveRedLeft]
  simp only [colorFlip_node, right_node, left_toggleColor, hrl,
    Bool.false_eq_true, if_false, ite_false]

/-- `MoveRedLeft`, inner case: red left grandchild on the right. -/
theorem moveRedLeft_inner {k rk rlk : Nat} {c rc : Bool} {l rll rlr rr : LLTB} :
    MoveRedLeft (.node k c l (.node rk rc (.node rlk true rll rlr) rr)) =
      .node rlk c (.node k false (ToggleColor l) rll) (.node rk false rlr rr) := by
  cases c <;> rfl

/-- `MoveRedRight`, simple case. -/
theorem moveRedRight_simple {k : Nat} {c : Bool} {l r : LLTB}
    (hll : IsRed l.left = false) :
    MoveRedRight (.node k c l r) = .node k (!c) (ToggleColor l) (ToggleColor r) := by
  rw [MoveRedRight]
  simp only [colorFlip_node, left_node, left_toggleColor, hll,
    Bool.false_eq_true, if_false, ite_false]

/-- `MoveRedRight`, inner case: red left grandchild on the left. -/
theorem moveRedRight_inner {k lk llk : Nat} {c lc : Bool} {lll llr lr r : LLTB} :
    MoveRedRight (.node k c (.node lk lc (.node llk true lll llr) lr) r) =
      .node lk c (.node llk false lll llr) (.node k false lr (ToggleColor r)) := by
  cases c <;> rfl

/-! ## The four relevant configurations of `FixUp` -/

/-- Both children effectively black: `FixUp` is the identity. -/
theorem fixUp_id1 {k : Nat} {c : Bool} {l r : LLTB}
    (hrb : IsRed r = false) (hlb : IsRed l = false) :
    FixUp (.node k c l r) = .node k c l r := by
  simp only [FixUp, right_node, left_node, hrb, hlb, Bool.false_eq_true, if_false,
    Bool.false_and, ite_false]

/-- Right child black, left child red with a black left child: identity. -/
theorem fixUp_id2 {k : Nat} {c : Bool} {l r : LLTB}
    (hrb : IsRed r = false) (hllb : IsRed l.left = false) :
    FixUp (.node k c l r) = .node k c l r := by
  simp only [FixUp, right_node, left_node, hrb, hllb, Bool.false_eq_true, if_false,
    Bool.and_false, ite_false]

/-- Right child red, left child black: a single left rotation (the rotated
tree needs `rr` black for the color flip not to fire). -/
theorem fixUp_rotateLeft {k rk : Nat} {c : Bool} {l rl rr : LLTB}
    (hlb : IsRed l = false) (hrrb : IsRed rr = false) :
    FixUp (.node k c l (.node rk true rl rr)) =
      .node rk c (.node k true l rl) rr := by
  simp only [FixUp, right_node, left_node, isRed_node, if_true, ite_true,
    RotateLeft, hlb, hrrb, Bool.and_false, Bool.false_eq_true, if_false, ite_false]

/-- Both children red: the rotate-left/rotate-right pair cancels and the
net effect is exactly the color flip. -/
theorem fixUp_bothRed {k rk : Nat} {c : Bool} {l rl rr : LLTB}
    (hl : IsRed l = true) :
    FixUp (.node k c l (.node rk true rl rr)) =
      .node k (!c) (ToggleColor l) (.node rk false rl rr) := by
  simp only [FixUp, right_node, left_node, isRed_node, if_true, ite_true,
    RotateLeft, hl, Bool.true_and, Bool.and_true, Bool.and_self, RotateRight,
    colorFlip_node, toggleColor_node, Bool.not_true]


/-! ## Contract of `DeleteMin` -/

theorem bal_nil_elim {n : Nat} (h : Bal .nil n) : n = 0 := by
  cases h
  rfl

theorem deleteMin_spec : ∀ (N : Nat) (t : LLTB) (n : Nat), t.size ≤ N → Ok t → Bal t n →
    (IsRed t = true ∨ IsRed t.left = true) → t ≠ .nil →
    Ok (DeleteMin t) ∧ Bal (DeleteMin t) n ∧
      TraverseKeys (DeleteMin t) = (TraverseKeys t).drop 1 ∧
      (IsRed t = false → IsRed (DeleteMin t) = false) := by
  intro N
  induction N with
  | zero =>
    intro t n hsz ho hb hpre hne
    have := size_pos_of_ne_nil hne
    omega
  | succ N ih =>
    intro t n hsz ho hb hpre hne
    cases t with
    | nil => exact absurd rfl hne
    | node k c l r =>
      cases l with
      | nil =>
        rw [DeleteMin_noLeft]
        have hc : c = true := by
          rcases hpre with h | h
          · simpa using h
          · simp at h
        subst hc
        cases ho with
        | red hOkl hOkr hlb hrb =>
          obtain ⟨hBl, hBr⟩ := bal_red_elim hb
          have hn0 : n = 0 := bal_nil_elim hBl
          subst hn0
          have hrnil : r = .nil := bal_zero_black hBr hrb
          subst hrnil
          exact ⟨Ok.nil, Bal.nil, rfl, fun h => by simp at h⟩
      | node lk lc ll lr =>
        by_cases hg : (!IsRed (LLTB.node lk lc ll lr) && !IsRed ll) = true
        · -- `MoveRedLeft` fires: the left child and its left child are black
          have hlc : lc = false := by
            simp only [isRed_node, Bool.and_eq_true, Bool.not_eq_true'] at hg
            exact hg.1
          subst hlc
          have hll : IsRed ll = false := by
            simp only [isRed_node, Bool.and_eq_true, Bool.not_eq_true'] at hg
            exact hg.2
          have hc : c = true := by
            rcases hpre with h | h
            · simpa using h
            · simp at h
          subst hc
          cases ho with
          | red hOkl hOkr _ hrb =>
            obtain ⟨hBl, hBr⟩ := bal_red_elim hb
            obtain ⟨m, hm⟩ := bal_black_succ hBl (by simp) (by simp)
            subst hm
            obtain ⟨hOkll, hOklr, hlrb⟩ :
                Ok ll ∧ Ok lr ∧ IsRed lr = false := by
              cases hOkl with
              | black h1 h2 h3 => exact ⟨h1, h2, h3⟩
            obtain ⟨hBll, hBlr⟩ := bal_black_elim hBl
            cases r with
            | nil =>
              have := bal_nil_elim hBr
              omega
            | node rk rc rl rr =>
              have hrc : rc = false := by simpa using hrb
              subst hrc
              obtain ⟨hOkrl, hOkrr, hrrb⟩ :
                  Ok rl ∧ Ok rr ∧ IsRed rr = false := by
                cases hOkr with
                | black h1 h2 h3 => exact ⟨h1, h2, h3⟩
              obtain ⟨hBrl, hBrr⟩ := bal_black_elim hBr
              by_cases hrl : IsRed rl = true
              · -- inner case of MoveRedLeft
                obtain ⟨rlk, rll, rlr, hrld⟩ := red_node_decomp hrl
                subst hrld
                rw [DeleteMin_move _ _ _ hg]
                simp only [moveRedLeft_inner, left_node, setLeft_node,
                  toggleColor_node, Bool.not_false]
                obtain ⟨hOkrll, hOkrlr, hrllb, hrlrb⟩ :
                    Ok rll ∧ Ok rlr ∧ IsRed rll = false ∧ IsRed rlr = false := by
                  cases hOkrl with
                  | red h1 h2 h3 h4 => exact ⟨h1, h2, h3, h4⟩
                obtain ⟨hBrll, hBrlr⟩ := bal_red_elim hBrl
                have hu : Ok (LLTB.node k false
                    (LLTB.node lk true ll lr) rll) :=
                  Ok.black (Ok.red hOkll hOklr hll hlrb) hOkrll hrllb
                have hbu : Bal (LLTB.node k false (LLTB.node lk true ll lr) rll)
                    (m + 1) :=
                  Bal.black (Bal.red hBll hBlr) hBrll
                have hszu : (LLTB.node k false (LLTB.node lk true ll lr)
                    rll).size ≤ N := by
                  simp only [LLTB.size] at hsz ⊢
                  omega
                obtain ⟨hOkRes, hBRes, hKRes, hBlkRes⟩ :=
                  ih _ _ hszu hu hbu (Or.inr (by simp)) (by simp)
                have hResBlack : IsRed (DeleteMin (LLTB.node k false
                    (LLTB.node lk true ll lr) rll)) = false := hBlkRes rfl
                rw [fixUp_id1 (by simp) hResBlack]
                refine ⟨Ok.red hOkRes (Ok.black hOkrlr hOkrr hrrb) hResBlack rfl,
                  Bal.red hBRes (Bal.black hBrlr hBrr), ?_, fun h => by simp at h⟩
                cases hKll : TraverseKeys ll with
                | nil =>
                  simp [hKRes, hKll, traverseKeys_toggleColor, List.append_assoc]
                | cons b bs =>
                  simp [hKRes, hKll, traverseKeys_toggleColor, List.append_assoc]
              · -- simple case of MoveRedLeft
                rw [DeleteMin_move _ _ _ hg,
                  moveRedLeft_simple (by simpa using hrl)]
                simp only [toggleColor_node, Bool.not_false, Bool.not_true,
                  left_node, setLeft_node]
                have hrlb : IsRed rl = false := by simpa using hrl
                have hu : Ok (LLTB.node lk true ll lr) :=
                  Ok.red hOkll hOklr hll hlrb
                have hbu : Bal (LLTB.node lk true ll lr) m := Bal.red hBll hBlr
                have hszu : (LLTB.node lk true ll lr).size ≤ N := by
                  simp only [LLTB.size] at hsz ⊢
                  omega
                obtain ⟨hOkRes, hBRes, hKRes, _⟩ :=
                  ih _ _ hszu hu hbu (Or.inl rfl) (by simp)
                cases hcres : IsRed (DeleteMin (LLTB.node lk true ll lr)) with
                | true =>
                  rw [fixUp_bothRed hcres]
                  obtain ⟨dk, dl, dr, hdd⟩ := red_node_decomp hcres
                  refine ⟨?_, ?_, ?_, fun h => by simp at h⟩
                  · rw [hdd]
                    have hOkd : Ok (LLTB.node dk true dl dr) := by
                      rw [← hdd]; exact hOkRes
                    cases hOkd with
                    | red h1 h2 h3 h4 =>
                      exact Ok.red (Ok.black h1 h2 h4)
                        (Ok.black hOkrl hOkrr hrrb) rfl rfl
                  · rw [hdd]
                    have hBd : Bal (LLTB.node dk true dl dr) m := by
                      rw [← hdd]; exact hBRes
                    cases hBd with
                    | red h1 h2 =>
                      exact Bal.red (Bal.black h1 h2) (Bal.black hBrl hBrr)
                  · cases hKll : TraverseKeys ll with
                    | nil => simp [hKRes, hKll, traverseKeys_toggleColor, List.append_assoc]
                    | cons b bs => simp [hKRes, hKll, traverseKeys_toggleColor, List.append_assoc]
                | false =>
                  rw [fixUp_rotateLeft hcres hrrb]
                  refine ⟨Ok.black (Ok.red hOkRes hOkrl hcres hrlb) hOkrr hrrb,
                    Bal.black (Bal.red hBRes hBrl) hBrr, ?_, fun _ => rfl⟩
                  cases hKll : TraverseKeys ll with
                  | nil => simp [hKRes, hKll, traverseKeys_toggleColor, List.append_assoc]
                  | cons b bs => simp [hKRes, hKll, traverseKeys_toggleColor, List.append_assoc]
        · -- no move: the left child (or its left child) is already red
          rw [DeleteMin_nomove _ _ _ hg]
          have hpre' : IsRed (LLTB.node lk lc ll lr) = true ∨
              IsRed (LLTB.node lk lc ll lr).left = true := by
            simp only [isRed_node, Bool.and_eq_true, Bool.not_eq_true'] at hg
            rcases Bool.eq_false_or_eq_true lc with h | h
            · left
              simpa using h
            · right
              simp only [left_node]
              by_contra hc
              exact hg ⟨by simpa using h, by revert hc; cases IsRed ll <;> simp⟩
          have hlOk : Ok (LLTB.node lk lc ll lr) := ho.leftOk
          have hrOk : Ok r := ho.rightOk
          have hrb : IsRed r = false := ho.rightBlack
          obtain ⟨m, hBl, hBr, hnm⟩ := hb.node_elim
          have hszl : (LLTB.node lk lc ll lr).size ≤ N := by
            simp only [LLTB.size] at hsz ⊢
            omega
          obtain ⟨hOkRes, hBRes, hKRes, hBlkRes⟩ :=
            ih _ _ hszl hlOk hBl hpre' (by simp)
          have hkeys : TraverseKeys (LLTB.node k c
              (DeleteMin (LLTB.node lk lc ll lr)) r) =
              (TraverseKeys (LLTB.node k c (LLTB.node lk lc ll lr) r)).drop 1 := by
            cases hKll : TraverseKeys ll with
            | nil => simp [hKRes, hKll, traverseKeys_toggleColor, List.append_assoc]
            | cons b bs => simp [hKRes, hKll, traverseKeys_toggleColor, List.append_assoc]
          cases hcres : IsRed (DeleteMin (LLTB.node lk lc ll lr)) with
          | false =>
            rw [fixUp_id1 hrb hcres]
            refine ⟨Ok.mk' hOkRes hrOk hrb (fun _ => hcres), ?_, hkeys, ?_⟩
            · cases c <;> simp at hnm <;> subst hnm
              · exact Bal.black hBRes hBr
              · exact Bal.red hBRes hBr
            · intro h
              simpa using h
          | true =>
            have hlred : IsRed (LLTB.node lk lc ll lr) = true := by
              by_contra hcon
              have := hBlkRes (by revert hcon; cases lc <;> simp)
              rw [this] at hcres
              cases hcres
            have hc : c = false := by
              by_contra hcon
              have hct : c = true := by revert hcon; cases c <;> simp
              subst hct
              have := ho.leftBlackOfRed
              rw [this] at hlred
              cases hlred
            subst hc
            rw [fixUp_id2 hrb (hOkRes.leftBlackOfRed' hcres)]
            refine ⟨Ok.black hOkRes hrOk hrb, ?_, hkeys, fun _ => rfl⟩
            simp only [Bool.false_eq_true, if_false, ite_false] at hnm
            subst hnm
            exact Bal.black hBRes hBr


/-! ## Contract of `DeleteRec` -/

/-- Entry shape A: red node. -/
def preA (t : LLTB) : Prop := IsRed t = true ∧ Ok t

/-- Entry shape B: black node with a red left child. -/
def preB (t : LLTB) : Prop := IsRed t = false ∧ IsRed t.left = true ∧ Ok t

/-- Entry shape C: black node with black left child and red right child
(the transient right-leaning state created by `MoveRedRight`'s inner case),
entered only while searching a key not smaller than the node key. -/
def preC (t : LLTB) (key : Nat) : Prop :=
  ∃ k l r, t = .node k false l r ∧ IsRed l = false ∧ IsRed r = true ∧
    Ok l ∧ Ok r ∧ k ≤ key

/-- Entry shape D: black node with two black children — only the top-level
call of the public `Delete` can look like this. -/
def preD (t : LLTB) : Prop :=
  IsRed t = false ∧ IsRed t.left = false ∧ IsRed t.right = false ∧ Ok t ∧ t ≠ .nil

/-- Joint postcondition of `DeleteRec t key` with result `u` at black
height `n`. -/
def delPost (t : LLTB) (key : Nat) (n : Nat) (u : LLTB) : Prop :=
  TraverseKeys u = (TraverseKeys t).filter (fun a => a ≠ key) ∧
    ((preA t ∨ preB t ∨ preC t key) → Ok u ∧ Bal u n) ∧
    ((preB t ∨ preC t key) → IsRed u = false) ∧
    (preD t → OkTop u ∧ ∃ m, Bal u m)

theorem delPost_strong {t u : LLTB} {key n : Nat}
    (hk : TraverseKeys u = (TraverseKeys t).filter (fun a => a ≠ key))
    (ho : Ok u) (hb : Bal u n) (hblack : IsRed u = false) : delPost t key n u :=
  ⟨hk, fun _ => ⟨ho, hb⟩, fun _ => hblack, fun _ => ⟨ho.okTop, _, hb⟩⟩

theorem delPost_red {t u : LLTB} {key n : Nat}
    (hk : TraverseKeys u = (TraverseKeys t).filter (fun a => a ≠ key))
    (ho : Ok u) (hb : Bal u n) (hnb : ¬ preB t) (hnc : ¬ preC t key) :
    delPost t key n u :=
  ⟨hk, fun _ => ⟨ho, hb⟩, fun h => (h.elim hnb hnc).elim,
    fun _ => ⟨ho.okTop, _, hb⟩⟩

theorem delPost_top {t u : LLTB} {key n m : Nat}
    (hk : TraverseKeys u = (TraverseKeys t).filter (fun a => a ≠ key))
    (hT : OkTop u) (hb : Bal u m)
    (hna : ¬ preA t) (hnb : ¬ preB t) (hnc : ¬ preC t key) :
    delPost t key n u :=
  ⟨hk, fun h => ((h.elim hna (fun h' => h'.elim hnb hnc))).elim,
    fun h => (h.elim hnb hnc).elim, fun _ => ⟨hT, m, hb⟩⟩

/-- The first key of a non-empty subtree's traversal is `FindMin`'s key. -/
theorem findMin_cons : ∀ (t : LLTB), t ≠ .nil →
    ∃ tl, TraverseKeys t = (FindMin t).key :: tl := by
  intro t
  induction t with
  | nil => intro h; exact absurd rfl h
  | node k c l r ihl ihr =>
    intro _
    cases l with
    | nil => exact ⟨TraverseKeys r, rfl⟩
    | node lk lc ll lr =>
      obtain ⟨tl, htl⟩ := ihl (by simp)
      refine ⟨tl ++ k :: TraverseKeys r, ?_⟩
      show TraverseKeys (LLTB.node lk lc ll lr) ++ k :: TraverseKeys r = _
      rw [htl]
      have : FindMin (LLTB.node k c (LLTB.node lk lc ll lr) r) =
          FindMin (LLTB.node lk lc ll lr) := by
        rw [FindMin]
      rw [this]
      simp

theorem filter_keep {key : Nat} {L : List Nat} (h : ∀ a ∈ L, a ≠ key) :
    L.filter (fun a => a ≠ key) = L := by
  rw [List.filter_eq_self]
  intro a ha
  simpa using h a ha


theorem asc_toggleColor {t : LLTB} : Asc (ToggleColor t) ↔ Asc t := by
  unfold Asc
  rw [traverseKeys_toggleColor]

theorem filter_cons_keep {key a : Nat} {L : List Nat} (h : a ≠ key) :
    (a :: L).filter (fun x => x ≠ key) = a :: L.filter (fun x => x ≠ key) := by
  simp [List.filter_cons, h]

theorem filter_cons_drop {key : Nat} {L : List Nat} :
    (key :: L).filter (fun x => x ≠ key) = L.filter (fun x => x ≠ key) := by
  simp [List.filter_cons]

theorem filter_cons_ite {key a : Nat} {L : List Nat} :
    (a :: L).filter (fun x => x ≠ key) =
      (if a = key then [] else [a]) ++ L.filter (fun x => x ≠ key) := by
  by_cases h : a = key
  · subst h
    rw [filter_cons_drop, if_pos rfl, List.nil_append]
  · rw [filter_cons_keep h, if_neg h, List.cons_append, List.nil_append]

theorem preB_of_parts {nk : Nat} {nc : Bool} {nl nr : LLTB}
    (hnc : nc = false) (hl : IsRed nl = true) (ho : Ok (.node nk nc nl nr)) :
    preB (.node nk nc nl nr) := by
  subst hnc
  exact ⟨rfl, by simpa using hl, ho⟩

theorem not_preB_of_left_black {nk : Nat} {nc : Bool} {nl nr : LLTB}
    (hl : IsRed nl = false) : ¬ preB (.node nk nc nl nr) := by
  rintro ⟨-, h, -⟩
  simp only [left_node] at h
  rw [hl] at h
  cases h

theorem not_preC_of_lt {nk : Nat} {nc : Bool} {nl nr : LLTB} {key : Nat}
    (h : key < nk) : ¬ preC (.node nk nc nl nr) key := by
  rintro ⟨k', l', r', heq, -, -, -, -, hk'⟩
  cases heq
  omega

theorem not_preC_of_right_black {nk : Nat} {nc : Bool} {nl nr : LLTB} {key : Nat}
    (h : IsRed nr = false) : ¬ preC (.node nk nc nl nr) key := by
  rintro ⟨k', l', r', heq, -, hr', -, -, -⟩
  cases heq
  rw [h] at hr'
  cases hr'

theorem not_preA_of_black {t : LLTB} (h : IsRed t = false) : ¬ preA t := by
  rintro ⟨h', -⟩
  rw [h] at h'
  cases h'

theorem not_preC_of_red {nk : Nat} {nl nr : LLTB} {key : Nat} :
    ¬ preC (.node nk true nl nr) key := by
  rintro ⟨k', l', r', heq, -⟩
  injection heq with h1 h2 h3 h4
  cases h2

theorem deleteRec_spec : ∀ (N : Nat) (t : LLTB) (key : Nat) (n : Nat),
    t.size ≤ N → Bal t n → Asc t →
    (preA t ∨ preB t ∨ preC t key ∨ preD t) →
    delPost t key n (DeleteRec t key) := by
  intro N
  induction N with
  | zero =>
    intro t key n hsz hb hasc hpre
    have hne : t ≠ .nil := by
      rcases hpre with ⟨h, -⟩ | ⟨-, h, -⟩ | ⟨k', l', r', heq, -⟩ | ⟨-, -, -, -, h⟩
      · intro hc; rw [hc] at h; cases h
      · intro hc; rw [hc] at h; simp at h
      · intro hc; rw [hc] at heq; cases heq
      · exact h
    have := size_pos_of_ne_nil hne
    omega
  | succ N ih =>
    intro t key n hsz hb hasc hpre
    cases t with
    | nil =>
      exfalso
      rcases hpre with ⟨h, -⟩ | ⟨-, h, -⟩ | ⟨k', l', r', heq, -⟩ | ⟨-, -, -, -, h⟩
      · cases h
      · simp at h
      · cases heq
      · exact h rfl
    | node nk nc nl nr =>
      obtain ⟨hAl, hAr, hLnk, hRnk⟩ := asc_node hasc
      by_cases hlt : key < nk
      · -- LEFT BRANCH
        have hnC : ¬ preC (.node nk nc nl nr) key := not_preC_of_lt hlt
        have hOk : Ok (.node nk nc nl nr) := by
          rcases hpre with ⟨-, h⟩ | ⟨-, -, h⟩ | hC | ⟨-, -, -, h, -⟩
          · exact h
          · exact h
          · exact absurd hC hnC
          · exact h
        have hOkl : Ok nl := hOk.leftOk
        have hOkr : Ok nr := hOk.rightOk
        have hrb : IsRed nr = false := hOk.rightBlack
        obtain ⟨m, hBl, hBr, hnm⟩ := hb.node_elim
        have hkeyNotHigh : ∀ a ∈ nk :: TraverseKeys nr, a ≠ key := by
          intro a ha
          rcases List.mem_cons.1 ha with h | h
          · omega
          · have := hRnk a h
            omega
        cases nl with
        | nil =>
          rw [DeleteRec_left_nil _ _ hlt, fixUp_id1 hrb isRed_nil]
          refine ⟨?_, fun _ => ⟨hOk, hb⟩, fun h => ?_, fun _ => ⟨hOk.okTop, n, hb⟩⟩
          · rw [traverseKeys_node, traverseKeys_nil, List.nil_append,
              filter_keep hkeyNotHigh]
          · rcases h with hB | hC
            · exact absurd hB (not_preB_of_left_black rfl)
            · exact absurd hC hnC
        | node lk lc ll lr =>
          obtain ⟨hAll, hAlr, hLlk, hRlk⟩ := asc_node hAl
          have hKeepl : ∀ L : List Nat, (∀ a ∈ L, a < nk → True) → True := fun _ _ => trivial
          by_cases hg : (!IsRed (LLTB.node lk lc ll lr) && !IsRed ll) = true
          · -- MoveRedLeft fires: left child and its left-left are black
            have hlc : lc = false := by
              simp only [isRed_node, Bool.and_eq_true, Bool.not_eq_true'] at hg
              exact hg.1
            subst hlc
            have hll : IsRed ll = false := by
              simp only [isRed_node, Bool.and_eq_true, Bool.not_eq_true'] at hg
              exact hg.2
            have hnB : ¬ preB (.node nk nc (.node lk false ll lr) nr) :=
              not_preB_of_left_black rfl
            obtain ⟨hOkll, hOklr, hlrb⟩ : Ok ll ∧ Ok lr ∧ IsRed lr = false := by
              cases hOkl with
              | black h1 h2 h3 => exact ⟨h1, h2, h3⟩
            obtain ⟨m', hm⟩ := bal_black_succ hBl (by simp) (by simp)
            subst hm
            obtain ⟨hBll, hBlr⟩ := bal_black_elim hBl
            cases nr with
            | nil =>
              have := bal_nil_elim hBr
              omega
            | node rk rc rl rr =>
              have hrc : rc = false := by simpa using hrb
              subst hrc
              obtain ⟨hOkrl, hOkrr, hrrb⟩ : Ok rl ∧ Ok rr ∧ IsRed rr = false := by
                cases hOkr with
                | black h1 h2 h3 => exact ⟨h1, h2, h3⟩
              obtain ⟨hBrl, hBrr⟩ := bal_black_elim hBr
              obtain ⟨hArl, hArr, hLrk, hRrk⟩ := asc_node hAr
              have hnkne : (nk : Nat) ≠ key := by omega
              have eRR : (TraverseKeys rr).filter (fun a => a ≠ key) =
                  TraverseKeys rr :=
                filter_keep (fun a ha => by have := hRnk a (by simp [ha]); omega)
              have hrkne : (rk : Nat) ≠ key := by
                have := hRnk rk (by simp)
                omega
              cases nc with
              | true =>
                simp only [if_true, ite_true] at hnm
                subst hnm
                by_cases hrl : IsRed rl = true
                · -- inner case of MoveRedLeft
                  obtain ⟨rlk, rll, rlr, hrld⟩ := red_node_decomp hrl
                  subst hrld
                  obtain ⟨hOkrll, hOkrlr, hrllb, hrlrb⟩ :
                      Ok rll ∧ Ok rlr ∧ IsRed rll = false ∧ IsRed rlr = false := by
                    cases hOkrl with
                    | red h1 h2 h3 h4 => exact ⟨h1, h2, h3, h4⟩
                  obtain ⟨hBrll, hBrlr⟩ := bal_red_elim hBrl
                  obtain ⟨hArll, hArlr, hLrlk, hRrlk⟩ := asc_node hArl
                  rw [DeleteRec_left_move hlt hg]
                  simp only [moveRedLeft_inner, left_node, setLeft_node,
                    toggleColor_node, Bool.not_false]
                  have hOkX : Ok (LLTB.node nk false (LLTB.node lk true ll lr) rll) :=
                    Ok.black (Ok.red hOkll hOklr hll hlrb) hOkrll hrllb
                  have hBX : Bal (LLTB.node nk false (LLTB.node lk true ll lr) rll)
                      (m' + 1) := Bal.black (Bal.red hBll hBlr) hBrll
                  have hAX : Asc (LLTB.node nk false (LLTB.node lk true ll lr) rll) :=
                    asc_node_of_parts hAl hArll hLnk
                      (fun a ha => hRnk a (by simp [ha]))
                  have hpreX : preB (LLTB.node nk false (LLTB.node lk true ll lr) rll) :=
                    ⟨rfl, by simp, hOkX⟩
                  have hszX : (LLTB.node nk false (LLTB.node lk true ll lr) rll).size
                      ≤ N := by
                    simp only [LLTB.size] at hsz ⊢
                    omega
                  obtain ⟨hKRes, hOB, hBlk, -⟩ :=
                    ih _ key _ hszX hBX hAX (Or.inr (Or.inl hpreX))
                  obtain ⟨hOkRes, hBRes⟩ := hOB (Or.inr (Or.inl hpreX))
                  have hResBlack := hBlk (Or.inl hpreX)
                  rw [fixUp_id1 (show IsRed (LLTB.node rk false rlr rr) = false from rfl) hResBlack]
                  refine delPost_red ?_
                    (Ok.red hOkRes (Ok.black hOkrlr hOkrr hrrb) hResBlack rfl)
                    (Bal.red hBRes (Bal.black hBrlr hBrr)) hnB hnC
                  have eRLR : (TraverseKeys rlr).filter (fun a => a ≠ key) =
                      TraverseKeys rlr :=
                    filter_keep (fun a ha => by have := hRnk a (by simp [ha]); omega)
                  have hrlkne : (rlk : Nat) ≠ key := by
                    have := hRnk rlk (by simp)
                    omega
                  simp only [traverseKeys_node, hKRes, List.filter_append,
                    filter_cons_ite, hnkne, hrkne, hrlkne, eRR, eRLR,
                    filter_keep (fun a ha => by have := hRnk a (by simp [ha]); omega :
                      ∀ a ∈ TraverseKeys rll, a ≠ key), if_false, ite_false,
                    List.append_assoc, List.cons_append, List.nil_append]
                · -- simple case of MoveRedLeft
                  have hrlb : IsRed rl = false := by simpa using hrl
                  rw [DeleteRec_left_move hlt hg,
                    moveRedLeft_simple (by simpa using hrlb)]
                  simp only [toggleColor_node, Bool.not_true, Bool.not_false,
                    left_node, setLeft_node]
                  have hOkX : Ok (LLTB.node lk true ll lr) :=
                    Ok.red hOkll hOklr hll hlrb
                  have hBX : Bal (LLTB.node lk true ll lr) m' := Bal.red hBll hBlr
                  have hAX : Asc (LLTB.node lk true ll lr) := hAl
                  have hpreX : preA (LLTB.node lk true ll lr) := ⟨rfl, hOkX⟩
                  have hszX : (LLTB.node lk true ll lr).size ≤ N := by
                    simp only [LLTB.size] at hsz ⊢
                    omega
                  obtain ⟨hKRes, hOB, -, -⟩ :=
                    ih _ key _ hszX hBX hAX (Or.inl hpreX)
                  obtain ⟨hOkRes, hBRes⟩ := hOB (Or.inl hpreX)
                  have ekeys : TraverseKeys (DeleteRec (LLTB.node lk true ll lr) key) =
                      (TraverseKeys (LLTB.node lk false ll lr)).filter
                        (fun a => a ≠ key) := hKRes
                  cases hcres : IsRed (DeleteRec (LLTB.node lk true ll lr) key) with
                  | true =>
                    rw [fixUp_bothRed hcres]
                    obtain ⟨dk, dl, dr, hdd⟩ := red_node_decomp hcres
                    have hOkd : Ok (ToggleColor (DeleteRec (LLTB.node lk true ll lr)
                        key)) := hOkRes.toggleRed hcres
                    have hBd : Bal (ToggleColor (DeleteRec (LLTB.node lk true ll lr)
                        key)) (m' + 1) := bal_toggle_red hBRes hcres
                    have hdb : IsRed (ToggleColor (DeleteRec
                        (LLTB.node lk true ll lr) key)) = false :=
                      isRed_toggleColor_of_red hcres
                    refine delPost_red ?_
                      (Ok.red hOkd (Ok.black hOkrl hOkrr hrrb) hdb rfl)
                      (Bal.red hBd (Bal.black hBrl hBrr)) hnB hnC
                    simp only [traverseKeys_node, traverseKeys_toggleColor, ekeys,
                      List.filter_append, filter_cons_ite, hnkne, hrkne, eRR,
                      filter_keep (fun a ha => by have := hRnk a (by simp [ha]); omega :
                        ∀ a ∈ TraverseKeys rl, a ≠ key), if_false, ite_false,
                      List.append_assoc, List.cons_append, List.nil_append]
                  | false =>
                    rw [fixUp_rotateLeft hcres hrrb]
                    refine delPost_strong ?_
                      (Ok.black (Ok.red hOkRes hOkrl hcres hrlb) hOkrr hrrb)
                      (Bal.black (Bal.red hBRes hBrl) hBrr) rfl
                    simp only [traverseKeys_node, ekeys, List.filter_append,
                      filter_cons_ite, hnkne, hrkne, eRR,
                      filter_keep (fun a ha => by have := hRnk a (by simp [ha]); omega :
                        ∀ a ∈ TraverseKeys rl, a ≠ key), if_false, ite_false,
                      List.append_assoc, List.cons_append, List.nil_append]
              | false =>
                simp only [Bool.false_eq_true, if_false, ite_false] at hnm
                subst hnm
                have hnA : ¬ preA (.node nk false (.node lk false ll lr)
                    (.node rk false rl rr)) := not_preA_of_black rfl
                by_cases hrl : IsRed rl = true
                · -- inner case, black root
                  obtain ⟨rlk, rll, rlr, hrld⟩ := red_node_decomp hrl
                  subst hrld
                  obtain ⟨hOkrll, hOkrlr, hrllb, hrlrb⟩ :
                      Ok rll ∧ Ok rlr ∧ IsRed rll = false ∧ IsRed rlr = false := by
                    cases hOkrl with
                    | red h1 h2 h3 h4 => exact ⟨h1, h2, h3, h4⟩
                  obtain ⟨hBrll, hBrlr⟩ := bal_red_elim hBrl
                  obtain ⟨hArll, hArlr, hLrlk, hRrlk⟩ := asc_node hArl
                  rw [DeleteRec_left_move hlt hg]
                  simp only [moveRedLeft_inner, left_node, setLeft_node,
                    toggleColor_node, Bool.not_false]
                  have hOkX : Ok (LLTB.node nk false (LLTB.node lk true ll lr) rll) :=
                    Ok.black (Ok.red hOkll hOklr hll hlrb) hOkrll hrllb
                  have hBX : Bal (LLTB.node nk false (LLTB.node lk true ll lr) rll)
                      (m' + 1) := Bal.black (Bal.red hBll hBlr) hBrll
                  have hAX : Asc (LLTB.node nk false (LLTB.node lk true ll lr) rll) :=
                    asc_node_of_parts hAl hArll hLnk
                      (fun a ha => hRnk a (by simp [ha]))
                  have hpreX : preB (LLTB.node nk false (LLTB.node lk true ll lr) rll) :=
                    ⟨rfl, by simp, hOkX⟩
                  have hszX : (LLTB.node nk false (LLTB.node lk true ll lr) rll).size
                      ≤ N := by
                    simp only [LLTB.size] at hsz ⊢
                    omega
                  obtain ⟨hKRes, hOB, hBlk, -⟩ :=
                    ih _ key _ hszX hBX hAX (Or.inr (Or.inl hpreX))
                  obtain ⟨hOkRes, hBRes⟩ := hOB (Or.inr (Or.inl hpreX))
                  have hResBlack := hBlk (Or.inl hpreX)
                  rw [fixUp_id1 (show IsRed (LLTB.node rk false rlr rr) = false from rfl) hResBlack]
                  refine delPost_strong ?_
                    (Ok.black hOkRes (Ok.black hOkrlr hOkrr hrrb) rfl)
                    (Bal.black hBRes (Bal.black hBrlr hBrr)) rfl
                  have eRLR : (TraverseKeys rlr).filter (fun a => a ≠ key) =
                      TraverseKeys rlr :=
                    filter_keep (fun a ha => by have := hRnk a (by simp [ha]); omega)
                  have hrlkne : (rlk : Nat) ≠ key := by
                    have := hRnk rlk (by simp)
                    omega
                  simp only [traverseKeys_node, hKRes, List.filter_append,
                    filter_cons_ite, hnkne, hrkne, hrlkne, eRR, eRLR,
                    filter_keep (fun a ha => by have := hRnk a (by simp [ha]); omega :
                      ∀ a ∈ TraverseKeys rll, a ≠ key), if_false, ite_false,
                    List.append_assoc, List.cons_append, List.nil_append]
                · -- simple case, black root: the two-level color drop
                  have hrlb : IsRed rl = false := by simpa using hrl
                  rw [DeleteRec_left_move hlt hg,
                    moveRedLeft_simple (by simpa using hrlb)]
                  simp only [toggleColor_node, Bool.not_true, Bool.not_false,
                    left_node, setLeft_node]
                  have hOkX : Ok (LLTB.node lk true ll lr) :=
                    Ok.red hOkll hOklr hll hlrb
                  have hBX : Bal (LLTB.node lk true ll lr) m' := Bal.red hBll hBlr
                  have hAX : Asc (LLTB.node lk true ll lr) := hAl
                  have hpreX : preA (LLTB.node lk true ll lr) := ⟨rfl, hOkX⟩
                  have hszX : (LLTB.node lk true ll lr).size ≤ N := by
                    simp only [LLTB.size] at hsz ⊢
                    omega
                  obtain ⟨hKRes, hOB, -, -⟩ :=
                    ih _ key _ hszX hBX hAX (Or.inl hpreX)
                  obtain ⟨hOkRes, hBRes⟩ := hOB (Or.inl hpreX)
                  have ekeys : TraverseKeys (DeleteRec (LLTB.node lk true ll lr) key) =
                      (TraverseKeys (LLTB.node lk false ll lr)).filter
                        (fun a => a ≠ key) := hKRes
                  cases hcres : IsRed (DeleteRec (LLTB.node lk true ll lr) key) with
                  | true =>
                    rw [fixUp_bothRed hcres]
                    have hOkd : Ok (ToggleColor (DeleteRec (LLTB.node lk true ll lr)
                        key)) := hOkRes.toggleRed hcres
                    have hBd : Bal (ToggleColor (DeleteRec (LLTB.node lk true ll lr)
                        key)) (m' + 1) := bal_toggle_red hBRes hcres
                    refine delPost_strong ?_
                      (Ok.black hOkd (Ok.black hOkrl hOkrr hrrb) rfl)
                      (Bal.black hBd (Bal.black hBrl hBrr)) rfl
                    simp only [traverseKeys_node, traverseKeys_toggleColor, ekeys,
                      List.filter_append, filter_cons_ite, hnkne, hrkne, eRR,
                      filter_keep (fun a ha => by have := hRnk a (by simp [ha]); omega :
                        ∀ a ∈ TraverseKeys rl, a ≠ key), if_false, ite_false,
                      List.append_assoc, List.cons_append, List.nil_append]
                  | false =>
                    rw [fixUp_rotateLeft hcres hrrb]
                    refine delPost_top ?_
                      (OkTop.node (Ok.red hOkRes hOkrl hcres hrlb) hOkrr hrrb)
                      (Bal.red (Bal.red hBRes hBrl) hBrr) hnA hnB hnC
                    simp only [traverseKeys_node, ekeys, List.filter_append,
                      filter_cons_ite, hnkne, hrkne, eRR,
                      filter_keep (fun a ha => by have := hRnk a (by simp [ha]); omega :
                        ∀ a ∈ TraverseKeys rl, a ≠ key), if_false, ite_false,
                      List.append_assoc, List.cons_append, List.nil_append]
          · -- no move: the left child or its left-left is red
            rw [DeleteRec_left_nomove hlt hg]
            have hpreL : preA (LLTB.node lk lc ll lr) ∨
                preB (LLTB.node lk lc ll lr) := by
              cases lc with
              | true => exact Or.inl ⟨rfl, hOkl⟩
              | false =>
                have hll : IsRed ll = true := by
                  cases h' : IsRed ll with
                  | true => rfl
                  | false => exact absurd (by simp [isRed_node, h']) hg
                exact Or.inr ⟨rfl, by simpa using hll, hOkl⟩
            have hszX : (LLTB.node lk lc ll lr).size ≤ N := by
              simp only [LLTB.size] at hsz ⊢
              omega
            obtain ⟨hKRes, hOB, hBlk, -⟩ :=
              ih _ key _ hszX hBl hAl
                (hpreL.elim Or.inl (fun h => Or.inr (Or.inl h)))
            obtain ⟨hOkRes, hBRes⟩ :=
              hOB (hpreL.elim Or.inl (fun h => Or.inr (Or.inl h)))
            have hK : TraverseKeys
                (LLTB.node nk nc (DeleteRec (LLTB.node lk lc ll lr) key) nr) =
                (TraverseKeys (LLTB.node nk nc (LLTB.node lk lc ll lr)
                  nr)).filter (fun a => a ≠ key) := by
              simp only [traverseKeys_node, hKRes, List.filter_append,
                filter_cons_keep (show (nk : Nat) ≠ key by omega),
                filter_keep (fun a ha => by have := hRnk a ha; omega :
                  ∀ a ∈ TraverseKeys nr, a ≠ key)]
            cases hcres : IsRed (DeleteRec (LLTB.node lk lc ll lr) key) with
            | false =>
              rw [fixUp_id1 hrb hcres]
              cases nc with
              | true =>
                simp only [if_true, ite_true] at hnm
                subst hnm
                refine delPost_red hK (Ok.red hOkRes hOkr hcres hrb)
                  (Bal.red hBRes hBr) ?_ hnC
                rintro ⟨hc, -, -⟩
                simp at hc
              | false =>
                simp only [Bool.false_eq_true, if_false, ite_false] at hnm
                subst hnm
                exact delPost_strong hK (Ok.black hOkRes hOkr hrb)
                  (Bal.black hBRes hBr) rfl
            | true =>
              have hresl : IsRed (DeleteRec (LLTB.node lk lc ll lr)
                  key).left = false := hOkRes.leftBlackOfRed' hcres
              rw [fixUp_id2 hrb hresl]
              cases nc with
              | true =>
                exfalso
                have hnlb : IsRed (LLTB.node nk true (LLTB.node lk lc ll lr)
                    nr).left = false := hOk.leftBlackOfRed' rfl
                simp only [left_node] at hnlb
                have hpB : preB (LLTB.node lk lc ll lr) := by
                  rcases hpreL with ⟨h1, -⟩ | hB
                  · rw [h1] at hnlb
                    cases hnlb
                  · exact hB
                have hbk := hBlk (Or.inl hpB)
                rw [hcres] at hbk
                cases hbk
              | false =>
                simp only [Bool.false_eq_true, if_false, ite_false] at hnm
                subst hnm
                exact delPost_strong hK (Ok.black hOkRes hOkr hrb)
                  (Bal.black hBRes hBr) rfl
      · -- RIGHT BRANCH
        have hnkle : nk ≤ key := Nat.le_of_not_lt hlt
        obtain ⟨m, hBl, hBr, hnm⟩ := hb.node_elim
        by_cases hnlr : IsRed nl = true
        · -- case (i): red left child, RotateRight first; entry shape is B
          have hOkTc : Ok (.node nk nc nl nr) ∧ nc = false := by
            rcases hpre with ⟨hred, hOk⟩ | ⟨hblk, -, hOk⟩ |
                ⟨k', l', r', heq, hlb, -⟩ | ⟨-, hlb, -⟩
            · have hlb := hOk.leftBlackOfRed' hred
              simp only [left_node] at hlb
              rw [hnlr] at hlb
              cases hlb
            · exact ⟨hOk, by simpa using hblk⟩
            · cases heq
              rw [hnlr] at hlb
              cases hlb
            · simp only [left_node] at hlb
              rw [hnlr] at hlb
              cases hlb
          obtain ⟨hOkT, hnc⟩ := hOkTc
          subst hnc
          simp only [Bool.false_eq_true, if_false, ite_false] at hnm
          subst hnm
          obtain ⟨lk, ll, lr, hld⟩ := red_node_decomp hnlr
          subst hld
          obtain ⟨hOkl, hOkr, hrb⟩ : Ok (LLTB.node lk true ll lr) ∧ Ok nr ∧
              IsRed nr = false := by
            cases hOkT with
            | black h1 h2 h3 => exact ⟨h1, h2, h3⟩
          obtain ⟨hOkll, hOklr, hllb, hlrb⟩ :
              Ok ll ∧ Ok lr ∧ IsRed ll = false ∧ IsRed lr = false := by
            cases hOkl with
            | red h1 h2 h3 h4 => exact ⟨h1, h2, h3, h4⟩
          obtain ⟨hBll, hBlr⟩ := bal_red_elim hBl
          obtain ⟨hAll, hAlr, hLlk, hRlk⟩ := asc_node hAl
          have hlkne : (lk : Nat) ≠ key := by
            have := hLnk lk (by simp)
            omega
          have ht2 : (if IsRed (LLTB.node lk true ll lr) = true then
              RotateRight (LLTB.node nk false (LLTB.node lk true ll lr) nr)
              else LLTB.node nk false (LLTB.node lk true ll lr) nr) =
              LLTB.node lk false ll (LLTB.node nk true lr nr) := by
            simp [RotateRight]
          have hk2 : ¬ (key = (LLTB.node lk false ll
              (LLTB.node nk true lr nr)).key ∧
              (LLTB.node lk false ll (LLTB.node nk true lr nr)).right =
                LLTB.nil) := by
            rintro ⟨-, hcon⟩
            simp at hcon
          have ht3 : (if (!IsRed (LLTB.node nk true lr nr) &&
              !IsRed (LLTB.node nk true lr nr).left) = true then
              MoveRedRight (LLTB.node lk false ll (LLTB.node nk true lr nr))
              else LLTB.node lk false ll (LLTB.node nk true lr nr)) =
              LLTB.node lk false ll (LLTB.node nk true lr nr) := by
            simp
          have hkey3 : ¬ key = (LLTB.node lk false ll
              (LLTB.node nk true lr nr)).key := by
            simp only [key_node]
            omega
          rw [DeleteRec_right_rec hlt ht2 hk2 rfl ht3 hkey3]
          simp only [setRight_node, right_node]
          have hpreX : preA (LLTB.node nk true lr nr) :=
            ⟨rfl, Ok.red hOklr hOkr hlrb hrb⟩
          have hBX : Bal (LLTB.node nk true lr nr) m := Bal.red hBlr hBr
          have hAX : Asc (LLTB.node nk true lr nr) :=
            asc_node_of_parts hAlr hAr
              (fun a ha => hLnk a (by simp [ha])) hRnk
          have hszX : (LLTB.node nk true lr nr).size ≤ N := by
            simp only [LLTB.size] at hsz ⊢
            omega
          obtain ⟨hKRes, hOB, -, -⟩ :=
            ih _ key _ hszX hBX hAX (Or.inl hpreX)
          obtain ⟨hOkRes, hBRes⟩ := hOB (Or.inl hpreX)
          have hK : TraverseKeys (LLTB.node lk false ll
              (DeleteRec (LLTB.node nk true lr nr) key)) =
              (TraverseKeys (LLTB.node nk false (LLTB.node lk true ll lr)
                nr)).filter (fun a => a ≠ key) := by
            simp only [traverseKeys_node, hKRes, List.filter_append,
              filter_cons_keep hlkne,
              filter_keep (fun a ha => by have := hLnk a (by simp [ha]); omega :
                ∀ a ∈ TraverseKeys ll, a ≠ key),
              List.append_assoc, List.cons_append]
          cases hcres : IsRed (DeleteRec (LLTB.node nk true lr nr) key) with
          | false =>
            rw [fixUp_id1 hcres hllb]
            exact delPost_strong hK (Ok.black hOkll hOkRes hcres)
              (Bal.black hBll hBRes) rfl
          | true =>
            obtain ⟨dk, dl, dr, hdd⟩ := red_node_decomp hcres
            rw [hdd] at hK hOkRes hBRes ⊢
            obtain ⟨hOkdl, hOkdr, hdlb, hdrb⟩ :
                Ok dl ∧ Ok dr ∧ IsRed dl = false ∧ IsRed dr = false := by
              cases hOkRes with
              | red h1 h2 h3 h4 => exact ⟨h1, h2, h3, h4⟩
            obtain ⟨hBdl, hBdr⟩ := bal_red_elim hBRes
            rw [fixUp_rotateLeft hllb hdrb]
            refine delPost_strong ?_
              (Ok.black (Ok.red hOkll hOkdl hllb hdlb) hOkdr hdrb)
              (Bal.black (Bal.red hBll hBdl) hBdr) rfl
            simpa only [traverseKeys_node, List.append_assoc,
              List.cons_append] using hK
        · -- case (ii): black left child, no rotation
          have hnlb : IsRed nl = false := by simpa using hnlr
          have ht2 : (if IsRed nl = true then
              RotateRight (LLTB.node nk nc nl nr) else LLTB.node nk nc nl nr) =
              LLTB.node nk nc nl nr := by
            rw [hnlb]
            simp
          cases nr with
          | nil =>
            have hm0 : m = 0 := bal_nil_elim hBr
            subst hm0
            have hlnil : nl = .nil := bal_zero_black hBl hnlb
            subst hlnil
            by_cases hkeq : key = nk
            · -- leaf delete: the only key equals the searched key
              rw [DeleteRec_leaf hlt ht2 ⟨hkeq, rfl⟩]
              subst hkeq
              refine ⟨by simp [filter_cons_drop], ?_, fun _ => rfl,
                fun _ => ⟨OkTop.nil, 0, Bal.nil⟩⟩
              rintro (⟨hred, -⟩ | hB | hC)
              · have hnc : nc = true := by simpa using hred
                subst hnc
                simp only [if_true, ite_true] at hnm
                subst hnm
                exact ⟨Ok.nil, Bal.nil⟩
              · exact absurd hB (not_preB_of_left_black rfl)
              · exact absurd hC (not_preC_of_right_black rfl)
            · -- singleton tree, key not found
              rw [DeleteRec_right_nil hlt ht2 (by rintro ⟨h, -⟩; exact hkeq h) rfl,
                fixUp_id1 isRed_nil isRed_nil]
              refine ⟨?_, ?_, ?_, ?_⟩
              · simp only [traverseKeys_node, traverseKeys_nil,
                  List.nil_append,
                  filter_cons_keep (fun h => hkeq h.symm : (nk : Nat) ≠ key),
                  List.filter_nil]
              · rintro (⟨-, hOk⟩ | hB | hC)
                · exact ⟨hOk, hb⟩
                · exact absurd hB (not_preB_of_left_black rfl)
                · exact absurd hC (not_preC_of_right_black rfl)
              · rintro (hB | hC)
                · exact absurd hB (not_preB_of_left_black rfl)
                · exact absurd hC (not_preC_of_right_black rfl)
              · rintro ⟨-, -, -, hOk, -⟩
                exact ⟨hOk.okTop, n, hb⟩
          | node rk rc rl rr =>
            obtain ⟨hArl, hArr, hLrk, hRrk⟩ := asc_node hAr
            have hk2 : ¬ (key = (LLTB.node nk nc nl
                (LLTB.node rk rc rl rr)).key ∧
                (LLTB.node nk nc nl (LLTB.node rk rc rl rr)).right =
                  LLTB.nil) := by
              rintro ⟨-, hcon⟩
              simp at hcon
            by_cases hg2 : (!IsRed (LLTB.node rk rc rl rr) && !IsRed rl) = true
            · -- MoveRedRight fires: right child and its left child are black
              have hrc : rc = false := by
                simp only [isRed_node, Bool.and_eq_true, Bool.not_eq_true'] at hg2
                exact hg2.1
              subst hrc
              have hrlb : IsRed rl = false := by
                simp only [isRed_node, Bool.and_eq_true, Bool.not_eq_true'] at hg2
                exact hg2.2
              have hOkT : Ok (LLTB.node nk nc nl (LLTB.node rk false rl rr)) := by
                rcases hpre with ⟨-, h⟩ | hB | hC | ⟨-, -, -, h, -⟩
                · exact h
                · exact absurd hB (not_preB_of_left_black hnlb)
                · exact absurd hC (not_preC_of_right_black rfl)
                · exact h
              have hOkl : Ok nl := hOkT.leftOk
              have hOkr : Ok (LLTB.node rk false rl rr) := hOkT.rightOk
              obtain ⟨hOkrl, hOkrr, hrrb⟩ : Ok rl ∧ Ok rr ∧ IsRed rr = false := by
                cases hOkr with
                | black h1 h2 h3 => exact ⟨h1, h2, h3⟩
              obtain ⟨m', hm⟩ := bal_black_succ hBr (by simp) (by simp)
              subst hm
              obtain ⟨hBrl, hBrr⟩ := bal_black_elim hBr
              cases nl with
              | nil =>
                have := bal_nil_elim hBl
                omega
              | node lk lc ll lr =>
                have hlc : lc = false := by simpa using hnlb
                subst hlc
                obtain ⟨hOkll, hOklr, hlrb⟩ :
                    Ok ll ∧ Ok lr ∧ IsRed lr = false := by
                  cases hOkl with
                  | black h1 h2 h3 => exact ⟨h1, h2, h3⟩
                obtain ⟨hBll, hBlr⟩ := bal_black_elim hBl
                obtain ⟨hAll, hAlr, hLlk, hRlk⟩ := asc_node hAl
                have hlkne : (lk : Nat) ≠ key := by
                  have := hLnk lk (by simp)
                  omega
                by_cases hllr : IsRed ll = true
                · -- inner case of MoveRedRight
                  obtain ⟨llk, lll, llr, hlld⟩ := red_node_decomp hllr
                  subst hlld
                  obtain ⟨hOklll, hOkllr, hlllb, hllrb⟩ :
                      Ok lll ∧ Ok llr ∧ IsRed lll = false ∧
                        IsRed llr = false := by
                    cases hOkll with
                    | red h1 h2 h3 h4 => exact ⟨h1, h2, h3, h4⟩
                  obtain ⟨hBlll, hBllr⟩ := bal_red_elim hBll
                  have ht3 : (if (!IsRed (LLTB.node rk false rl rr) &&
                      !IsRed rl) = true then
                      MoveRedRight (LLTB.node nk nc
                        (LLTB.node lk false (LLTB.node llk true lll llr) lr)
                        (LLTB.node rk false rl rr))
                      else LLTB.node nk nc
                        (LLTB.node lk false (LLTB.node llk true lll llr) lr)
                        (LLTB.node rk false rl rr)) =
                      LLTB.node lk nc (LLTB.node llk false lll llr)
                        (LLTB.node nk false lr (LLTB.node rk true rl rr)) := by
                    rw [if_pos hg2, moveRedRight_inner]
                    simp
                  have hkey3 : ¬ key = (LLTB.node lk nc
                      (LLTB.node llk false lll llr)
                      (LLTB.node nk false lr (LLTB.node rk true rl rr))).key := by
                    simp only [key_node]
                    have := hLnk lk (by simp)
                    omega
                  rw [DeleteRec_right_rec hlt ht2 hk2 rfl ht3 hkey3]
                  simp only [setRight_node, right_node]
                  have hpreX : preC (LLTB.node nk false lr
                      (LLTB.node rk true rl rr)) key :=
                    ⟨nk, lr, LLTB.node rk true rl rr, rfl, hlrb, rfl,
                      hOklr, Ok.red hOkrl hOkrr hrlb hrrb, hnkle⟩
                  have hBX : Bal (LLTB.node nk false lr
                      (LLTB.node rk true rl rr)) (m' + 1) :=
                    Bal.black hBlr (Bal.red hBrl hBrr)
                  have hAX : Asc (LLTB.node nk false lr
                      (LLTB.node rk true rl rr)) :=
                    asc_node_of_parts hAlr
                      (asc_node_of_parts hArl hArr hLrk hRrk)
                      (fun a ha => hLnk a (by simp [ha])) hRnk
                  have hszX : (LLTB.node nk false lr
                      (LLTB.node rk true rl rr)).size ≤ N := by
                    simp only [LLTB.size] at hsz ⊢
                    omega
                  obtain ⟨hKRes, hOB, hBlk, -⟩ :=
                    ih _ key _ hszX hBX hAX (Or.inr (Or.inr (Or.inl hpreX)))
                  obtain ⟨hOkRes, hBRes⟩ := hOB (Or.inr (Or.inr hpreX))
                  have hResBlack := hBlk (Or.inr hpreX)
                  rw [fixUp_id1 hResBlack (show IsRed (LLTB.node llk false lll llr) = false from rfl)]
                  have hllkne : (llk : Nat) ≠ key := by
                    have := hLnk llk (by simp)
                    omega
                  have hK : TraverseKeys (LLTB.node lk nc
                      (LLTB.node llk false lll llr)
                      (DeleteRec (LLTB.node nk false lr
                        (LLTB.node rk true rl rr)) key)) =
                      (TraverseKeys (LLTB.node nk nc
                        (LLTB.node lk false (LLTB.node llk true lll llr) lr)
                        (LLTB.node rk false rl rr))).filter
                          (fun a => a ≠ key) := by
                    simp only [traverseKeys_node, hKRes, List.filter_append,
                      filter_cons_keep hllkne, filter_cons_keep hlkne,
                      filter_keep (fun a ha => by
                        have := hLnk a (by simp [ha]); omega :
                        ∀ a ∈ TraverseKeys lll, a ≠ key),
                      filter_keep (fun a ha => by
                        have := hLnk a (by simp [ha]); omega :
                        ∀ a ∈ TraverseKeys llr, a ≠ key),
                      filter_keep (fun a ha => by
                        have := hLnk a (by simp [ha]); omega :
                        ∀ a ∈ TraverseKeys lr, a ≠ key),
                      List.append_assoc, List.cons_append]
                  cases nc with
                  | true =>
                    simp only [if_true, ite_true] at hnm
                    subst hnm
                    exact delPost_red hK
                      (Ok.red (Ok.black hOklll hOkllr hllrb) hOkRes rfl
                        hResBlack)
                      (Bal.red (Bal.black hBlll hBllr) hBRes)
                      (not_preB_of_left_black rfl) not_preC_of_red
                  | false =>
                    simp only [Bool.false_eq_true, if_false, ite_false] at hnm
                    subst hnm
                    exact delPost_strong hK
                      (Ok.black (Ok.black hOklll hOkllr hllrb) hOkRes
                        hResBlack)
                      (Bal.black (Bal.black hBlll hBllr) hBRes) rfl
                · -- simple case of MoveRedRight
                  have hllb : IsRed ll = false := by simpa using hllr
                  have ht3 : (if (!IsRed (LLTB.node rk false rl rr) &&
                      !IsRed rl) = true then
                      MoveRedRight (LLTB.node nk nc (LLTB.node lk false ll lr)
                        (LLTB.node rk false rl rr))
                      else LLTB.node nk nc (LLTB.node lk false ll lr)
                        (LLTB.node rk false rl rr)) =
                      LLTB.node nk (!nc) (LLTB.node lk true ll lr)
                        (LLTB.node rk true rl rr) := by
                    rw [if_pos hg2, moveRedRight_simple (show IsRed (LLTB.node lk false ll lr).left = false from hllb)]
                    simp
                  by_cases hkeq : key = nk
                  · -- copy branch: delete the minimum of the right subtree
                    rw [DeleteRec_copy hlt ht2 hk2 rfl ht3 hkeq]
                    simp only [right_node, setRight_node, setKey_node]
                    have hOkR : Ok (LLTB.node rk true rl rr) :=
                      Ok.red hOkrl hOkrr hrlb hrrb
                    have hBR : Bal (LLTB.node rk true rl rr) m' :=
                      Bal.red hBrl hBrr
                    obtain ⟨hOkdm, hBdm, hKdm, -⟩ :=
                      deleteMin_spec _ _ _ le_rfl hOkR hBR (Or.inl rfl)
                        (by simp)
                    obtain ⟨tl, htl⟩ :=
                      findMin_cons (LLTB.node rk true rl rr) (by simp)
                    have hKdm' : TraverseKeys (DeleteMin
                        (LLTB.node rk true rl rr)) = tl := by
                      rw [hKdm, htl]
                      rfl
                    have hRtl : TraverseKeys rl ++ rk :: TraverseKeys rr =
                        (FindMin (LLTB.node rk true rl rr)).key :: tl := by
                      simpa only [traverseKeys_node] using htl
                    subst hkeq
                    have eLL : (TraverseKeys ll).filter (fun a => a ≠ key) =
                        TraverseKeys ll :=
                      filter_keep (fun a ha => by
                        have := hLnk a (by simp [ha]); omega)
                    have eLR : (TraverseKeys lr).filter (fun a => a ≠ key) =
                        TraverseKeys lr :=
                      filter_keep (fun a ha => by
                        have := hLnk a (by simp [ha]); omega)
                    have eNR : ((FindMin (LLTB.node rk true rl rr)).key ::
                        tl).filter (fun a => a ≠ key) =
                        (FindMin (LLTB.node rk true rl rr)).key :: tl :=
                      filter_keep (fun a ha => by
                        rw [← hRtl] at ha
                        have := hRnk a (by simpa using ha)
                        omega)
                    cases hcdm : IsRed (DeleteMin (LLTB.node rk true rl rr)) with
                    | false =>
                      rw [fixUp_id2 hcdm (show IsRed (LLTB.node lk true ll lr).left = false from hllb)]
                      have hK : TraverseKeys (LLTB.node
                          (FindMin (LLTB.node rk true rl rr)).key (!nc)
                          (LLTB.node lk true ll lr)
                          (DeleteMin (LLTB.node rk true rl rr))) =
                          (TraverseKeys (LLTB.node key nc
                            (LLTB.node lk false ll lr)
                            (LLTB.node rk false rl rr))).filter
                              (fun a => a ≠ key) := by
                        simp only [traverseKeys_node, hKdm', hRtl,
                          List.filter_append, filter_cons_drop,
                          filter_cons_keep hlkne, eLL, eLR, eNR,
                          List.append_assoc, List.cons_append]
                      cases nc with
                      | true =>
                        simp only [if_true, ite_true] at hnm
                        subst hnm
                        exact delPost_red hK
                          (Ok.black (Ok.red hOkll hOklr hllb hlrb) hOkdm hcdm)
                          (Bal.black (Bal.red hBll hBlr) hBdm)
                          (not_preB_of_left_black rfl) not_preC_of_red
                      | false =>
                        simp only [Bool.false_eq_true, if_false, ite_false]
                          at hnm
                        subst hnm
                        refine delPost_top hK
                          (OkTop.node (Ok.red hOkll hOklr hllb hlrb) hOkdm
                            hcdm)
                          (Bal.red (Bal.red hBll hBlr) hBdm)
                          (not_preA_of_black rfl)
                          (not_preB_of_left_black rfl)
                          (not_preC_of_right_black rfl)
                    | true =>
                      obtain ⟨dk, dl, dr, hdd⟩ := red_node_decomp hcdm
                      rw [hdd] at hOkdm hBdm hKdm' ⊢
                      obtain ⟨hOkdl, hOkdr, hdlb, hdrb⟩ :
                          Ok dl ∧ Ok dr ∧ IsRed dl = false ∧
                            IsRed dr = false := by
                        cases hOkdm with
                        | red h1 h2 h3 h4 => exact ⟨h1, h2, h3, h4⟩
                      obtain ⟨hBdl, hBdr⟩ := bal_red_elim hBdm
                      have hKdd : TraverseKeys dl ++ dk :: TraverseKeys dr =
                          tl := by
                        simpa only [traverseKeys_node] using hKdm'
                      rw [fixUp_bothRed (show IsRed (LLTB.node lk true ll lr) = true from rfl)]
                      simp only [toggleColor_node, Bool.not_true, Bool.not_not]
                      have hK : TraverseKeys (LLTB.node
                          (FindMin (LLTB.node rk true rl rr)).key nc
                          (LLTB.node lk false ll lr)
                          (LLTB.node dk false dl dr)) =
                          (TraverseKeys (LLTB.node key nc
                            (LLTB.node lk false ll lr)
                            (LLTB.node rk false rl rr))).filter
                              (fun a => a ≠ key) := by
                        simp only [traverseKeys_node, hKdd, hRtl,
                          List.filter_append, filter_cons_drop,
                          filter_cons_keep hlkne, eLL, eLR, eNR,
                          List.append_assoc, List.cons_append]
                      cases nc with
                      | true =>
                        simp only [if_true, ite_true] at hnm
                        subst hnm
                        exact delPost_red hK
                          (Ok.red (Ok.black hOkll hOklr hlrb)
                            (Ok.black hOkdl hOkdr hdrb) rfl rfl)
                          (Bal.red (Bal.black hBll hBlr)
                            (Bal.black hBdl hBdr))
                          (not_preB_of_left_black rfl) not_preC_of_red
                      | false =>
                        simp only [Bool.false_eq_true, if_false, ite_false]
                          at hnm
                        subst hnm
                        exact delPost_strong hK
                          (Ok.black (Ok.black hOkll hOklr hlrb)
                            (Ok.black hOkdl hOkdr hdrb) rfl)
                          (Bal.black (Bal.black hBll hBlr)
                            (Bal.black hBdl hBdr)) rfl
                  · -- recurse into the recolored right child
                    have hkey3 : ¬ key = (LLTB.node nk (!nc)
                        (LLTB.node lk true ll lr)
                        (LLTB.node rk true rl rr)).key := fun h => hkeq h
                    rw [DeleteRec_right_rec hlt ht2 hk2 rfl ht3 hkey3]
                    simp only [setRight_node, right_node]
                    have hpreX : preA (LLTB.node rk true rl rr) :=
                      ⟨rfl, Ok.red hOkrl hOkrr hrlb hrrb⟩
                    have hBX : Bal (LLTB.node rk true rl rr) m' :=
                      Bal.red hBrl hBrr
                    have hAX : Asc (LLTB.node rk true rl rr) :=
                      asc_node_of_parts hArl hArr hLrk hRrk
                    have hszX : (LLTB.node rk true rl rr).size ≤ N := by
                      simp only [LLTB.size] at hsz ⊢
                      omega
                    obtain ⟨hKRes, hOB, -, -⟩ :=
                      ih _ key _ hszX hBX hAX (Or.inl hpreX)
                    obtain ⟨hOkRes, hBRes⟩ := hOB (Or.inl hpreX)
                    have hnkne : (nk : Nat) ≠ key := fun h => hkeq h.symm
                    have eLL : (TraverseKeys ll).filter (fun a => a ≠ key) =
                        TraverseKeys ll :=
                      filter_keep (fun a ha => by
                        have := hLnk a (by simp [ha]); omega)
                    have eLR : (TraverseKeys lr).filter (fun a => a ≠ key) =
                        TraverseKeys lr :=
                      filter_keep (fun a ha => by
                        have := hLnk a (by simp [ha]); omega)
                    cases hcres : IsRed (DeleteRec (LLTB.node rk true rl rr)
                        key) with
                    | false =>
                      rw [fixUp_id2 hcres (show IsRed (LLTB.node lk true ll lr).left = false from hllb)]
                      have hK : TraverseKeys (LLTB.node nk (!nc)
                          (LLTB.node lk true ll lr)
                          (DeleteRec (LLTB.node rk true rl rr) key)) =
                          (TraverseKeys (LLTB.node nk nc
                            (LLTB.node lk false ll lr)
                            (LLTB.node rk false rl rr))).filter
                              (fun a => a ≠ key) := by
                        simp only [traverseKeys_node, hKRes,
                          List.filter_append, filter_cons_keep hnkne,
                          filter_cons_keep hlkne, eLL, eLR,
                          List.append_assoc, List.cons_append]
                      cases nc with
                      | true =>
                        simp only [if_true, ite_true] at hnm
                        subst hnm
                        exact delPost_red hK
                          (Ok.black (Ok.red hOkll hOklr hllb hlrb) hOkRes
                            hcres)
                          (Bal.black (Bal.red hBll hBlr) hBRes)
                          (not_preB_of_left_black rfl) not_preC_of_red
                      | false =>
                        simp only [Bool.false_eq_true, if_false, ite_false]
                          at hnm
                        subst hnm
                        refine delPost_top hK
                          (OkTop.node (Ok.red hOkll hOklr hllb hlrb) hOkRes
                            hcres)
                          (Bal.red (Bal.red hBll hBlr) hBRes)
                          (not_preA_of_black rfl)
                          (not_preB_of_left_black rfl)
                          (not_preC_of_right_black rfl)
                    | true =>
                      obtain ⟨dk, dl, dr, hdd⟩ := red_node_decomp hcres
                      rw [hdd] at hOkRes hBRes hKRes ⊢
                      obtain ⟨hOkdl, hOkdr, hdlb, hdrb⟩ :
                          Ok dl ∧ Ok dr ∧ IsRed dl = false ∧
                            IsRed dr = false := by
                        cases hOkRes with
                        | red h1 h2 h3 h4 => exact ⟨h1, h2, h3, h4⟩
                      obtain ⟨hBdl, hBdr⟩ := bal_red_elim hBRes
                      rw [fixUp_bothRed (show IsRed (LLTB.node lk true ll lr) = true from rfl)]
                      simp only [toggleColor_node, Bool.not_true, Bool.not_not]
                      have hKdd : TraverseKeys dl ++ dk :: TraverseKeys dr =
                          (TraverseKeys rl).filter (fun a => a ≠ key) ++
                            (rk :: TraverseKeys rr).filter
                              (fun a => a ≠ key) := by
                        simpa only [traverseKeys_node, List.filter_append]
                          using hKRes
                      have hK : TraverseKeys (LLTB.node nk nc
                          (LLTB.node lk false ll lr)
                          (LLTB.node dk false dl dr)) =
                          (TraverseKeys (LLTB.node nk nc
                            (LLTB.node lk false ll lr)
                            (LLTB.node rk false rl rr))).filter
                              (fun a => a ≠ key) := by
                        simp only [traverseKeys_node, hKdd,
                          List.filter_append, filter_cons_keep hnkne,
                          filter_cons_keep hlkne, eLL, eLR,
                          List.append_assoc, List.cons_append]
                      cases nc with
                      | true =>
                        simp only [if_true, ite_true] at hnm
                        subst hnm
                        exact delPost_red hK
                          (Ok.red (Ok.black hOkll hOklr hlrb)
                            (Ok.black hOkdl hOkdr hdrb) rfl rfl)
                          (Bal.red (Bal.black hBll hBlr)
                            (Bal.black hBdl hBdr))
                          (not_preB_of_left_black rfl) not_preC_of_red
                      | false =>
                        simp only [Bool.false_eq_true, if_false, ite_false]
                          at hnm
                        subst hnm
                        exact delPost_strong hK
                          (Ok.black (Ok.black hOkll hOklr hlrb)
                            (Ok.black hOkdl hOkdr hdrb) rfl)
                          (Bal.black (Bal.black hBll hBlr)
                            (Bal.black hBdl hBdr)) rfl
            · -- no move on the right: the right child or its left child is red
              have hOkl : Ok nl := by
                rcases hpre with ⟨-, h⟩ | hB | ⟨k', l', r', heq, -, -, h, -, -⟩ |
                    ⟨-, -, -, h, -⟩
                · exact h.leftOk
                · exact absurd hB (not_preB_of_left_black hnlb)
                · cases heq
                  exact h
                · exact h.leftOk
              have hOknr : Ok (LLTB.node rk rc rl rr) := by
                rcases hpre with ⟨-, h⟩ | hB | ⟨k', l', r', heq, -, -, -, h, -⟩ |
                    ⟨-, -, -, h, -⟩
                · exact h.rightOk
                · exact absurd hB (not_preB_of_left_black hnlb)
                · cases heq
                  exact h
                · exact h.rightOk
              have hpreR : preA (LLTB.node rk rc rl rr) ∨
                  preB (LLTB.node rk rc rl rr) := by
                cases rc with
                | true => exact Or.inl ⟨rfl, hOknr⟩
                | false =>
                  have hrl : IsRed rl = true := by
                    cases h' : IsRed rl with
                    | true => rfl
                    | false => exact absurd (by simp [h']) hg2
                  exact Or.inr ⟨rfl, by simpa using hrl, hOknr⟩
              have ht3 : (if (!IsRed (LLTB.node rk rc rl rr) && !IsRed rl) =
                  true then
                  MoveRedRight (LLTB.node nk nc nl (LLTB.node rk rc rl rr))
                  else LLTB.node nk nc nl (LLTB.node rk rc rl rr)) =
                  LLTB.node nk nc nl (LLTB.node rk rc rl rr) := by
                rw [if_neg hg2]
              have hszR : (LLTB.node rk rc rl rr).size ≤ N := by
                simp only [LLTB.size] at hsz ⊢
                omega
              have eNL : (TraverseKeys nl).filter (fun a => a ≠ key) =
                  TraverseKeys nl :=
                filter_keep (fun a ha => by have := hLnk a ha; omega)
              by_cases hkeq : key = nk
              · -- copy branch: splice in the minimum of the right subtree
                rw [DeleteRec_copy hlt ht2 hk2 rfl ht3 hkeq]
                simp only [right_node, setRight_node, setKey_node]
                have hpreMin : IsRed (LLTB.node rk rc rl rr) = true ∨
                    IsRed (LLTB.node rk rc rl rr).left = true := by
                  rcases hpreR with ⟨h, -⟩ | ⟨-, h, -⟩
                  · exact Or.inl h
                  · exact Or.inr h
                obtain ⟨hOkdm, hBdm, hKdm, hBlkdm⟩ :=
                  deleteMin_spec _ _ _ le_rfl hOknr hBr hpreMin (by simp)
                obtain ⟨tl, htl⟩ := findMin_cons (LLTB.node rk rc rl rr)
                  (by simp)
                have hKdm' : TraverseKeys (DeleteMin
                    (LLTB.node rk rc rl rr)) = tl := by
                  rw [hKdm, htl]
                  rfl
                have hRtl : TraverseKeys rl ++ rk :: TraverseKeys rr =
                    (FindMin (LLTB.node rk rc rl rr)).key :: tl := by
                  simpa only [traverseKeys_node] using htl
                have eNR : ((FindMin (LLTB.node rk rc rl rr)).key ::
                    tl).filter (fun a => a ≠ key) =
                    (FindMin (LLTB.node rk rc rl rr)).key :: tl :=
                  filter_keep (fun a ha => by
                    rw [← hRtl] at ha
                    have := hRnk a (by simpa using ha)
                    omega)
                subst hkeq
                cases hcdm : IsRed (DeleteMin (LLTB.node rk rc rl rr)) with
                | false =>
                  rw [fixUp_id1 hcdm hnlb]
                  have hK : TraverseKeys (LLTB.node
                      (FindMin (LLTB.node rk rc rl rr)).key nc nl
                      (DeleteMin (LLTB.node rk rc rl rr))) =
                      (TraverseKeys (LLTB.node key nc nl
                        (LLTB.node rk rc rl rr))).filter
                          (fun a => a ≠ key) := by
                    simp only [traverseKeys_node, hKdm', hRtl,
                      List.filter_append, filter_cons_drop, eNL, eNR,
                      List.append_assoc, List.cons_append]
                  cases nc with
                  | true =>
                    simp only [if_true, ite_true] at hnm
                    subst hnm
                    exact delPost_red hK (Ok.red hOkl hOkdm hnlb hcdm)
                      (Bal.red hBl hBdm) (not_preB_of_left_black hnlb)
                      not_preC_of_red
                  | false =>
                    simp only [Bool.false_eq_true, if_false, ite_false] at hnm
                    subst hnm
                    exact delPost_strong hK (Ok.black hOkl hOkdm hcdm)
                      (Bal.black hBl hBdm) rfl
                | true =>
                  cases nc with
                  | true =>
                    exfalso
                    have hOkT : Ok (LLTB.node key true nl
                        (LLTB.node rk rc rl rr)) := by
                      rcases hpre with ⟨-, h⟩ | hB | hC | ⟨h1, -⟩
                      · exact h
                      · exact absurd hB (not_preB_of_left_black hnlb)
                      · exact absurd hC not_preC_of_red
                      · simp at h1
                    have hrcb : IsRed (LLTB.node rk rc rl rr) = false :=
                      hOkT.rightBlack
                    have := hBlkdm hrcb
                    rw [hcdm] at this
                    cases this
                  | false =>
                    obtain ⟨dk, dl, dr, hdd⟩ := red_node_decomp hcdm
                    rw [hdd] at hOkdm hBdm hKdm' ⊢
                    obtain ⟨hOkdl, hOkdr, hdlb, hdrb⟩ :
                        Ok dl ∧ Ok dr ∧ IsRed dl = false ∧
                          IsRed dr = false := by
                      cases hOkdm with
                      | red h1 h2 h3 h4 => exact ⟨h1, h2, h3, h4⟩
                    obtain ⟨hBdl, hBdr⟩ := bal_red_elim hBdm
                    have hKdd : TraverseKeys dl ++ dk :: TraverseKeys dr =
                        tl := by
                      simpa only [traverseKeys_node] using hKdm'
                    rw [fixUp_rotateLeft hnlb hdrb]
                    simp only [Bool.false_eq_true, if_false, ite_false] at hnm
                    subst hnm
                    refine delPost_strong ?_
                      (Ok.black (Ok.red hOkl hOkdl hnlb hdlb) hOkdr hdrb)
                      (Bal.black (Bal.red hBl hBdl) hBdr) rfl
                    simp only [traverseKeys_node, hKdd, hRtl,
                      List.filter_append, filter_cons_drop, eNL, eNR,
                      List.append_assoc, List.cons_append]
              · -- recurse into the right child
                have hkey3 : ¬ key = (LLTB.node nk nc nl
                    (LLTB.node rk rc rl rr)).key := fun h => hkeq h
                rw [DeleteRec_right_rec hlt ht2 hk2 rfl ht3 hkey3]
                simp only [setRight_node, right_node]
                obtain ⟨hKRes, hOB, hBlkR, -⟩ :=
                  ih _ key _ hszR hBr hAr
                    (hpreR.elim Or.inl (fun h => Or.inr (Or.inl h)))
                obtain ⟨hOkRes, hBRes⟩ :=
                  hOB (hpreR.elim Or.inl (fun h => Or.inr (Or.inl h)))
                have hnkne : (nk : Nat) ≠ key := fun h => hkeq h.symm
                cases hcres : IsRed (DeleteRec (LLTB.node rk rc rl rr)
                    key) with
                | false =>
                  rw [fixUp_id1 hcres hnlb]
                  have hK : TraverseKeys (LLTB.node nk nc nl
                      (DeleteRec (LLTB.node rk rc rl rr) key)) =
                      (TraverseKeys (LLTB.node nk nc nl
                        (LLTB.node rk rc rl rr))).filter
                          (fun a => a ≠ key) := by
                    simp only [traverseKeys_node, hKRes, List.filter_append,
                      filter_cons_keep hnkne, eNL,
                      List.append_assoc, List.cons_append]
                  cases nc with
                  | true =>
                    simp only [if_true, ite_true] at hnm
                    subst hnm
                    exact delPost_red hK (Ok.red hOkl hOkRes hnlb hcres)
                      (Bal.red hBl hBRes) (not_preB_of_left_black hnlb)
                      not_preC_of_red
                  | false =>
                    simp only [Bool.false_eq_true, if_false, ite_false] at hnm
                    subst hnm
                    exact delPost_strong hK (Ok.black hOkl hOkRes hcres)
                      (Bal.black hBl hBRes) rfl
                | true =>
                  cases nc with
                  | true =>
                    exfalso
                    have hOkT : Ok (LLTB.node nk true nl
                        (LLTB.node rk rc rl rr)) := by
                      rcases hpre with ⟨-, h⟩ | hB | hC | ⟨h1, -⟩
                      · exact h
                      · exact absurd hB (not_preB_of_left_black hnlb)
                      · exact absurd hC not_preC_of_red
                      · simp at h1
                    have hrcb : IsRed (LLTB.node rk rc rl rr) = false :=
                      hOkT.rightBlack
                    rcases hpreR with ⟨h, -⟩ | hpB
                    · rw [h] at hrcb
                      cases hrcb
                    · have := hBlkR (Or.inl hpB)
                      rw [hcres] at this
                      cases this
                  | false =>
                    obtain ⟨dk, dl, dr, hdd⟩ := red_node_decomp hcres
                    rw [hdd] at hOkRes hBRes hKRes ⊢
                    obtain ⟨hOkdl, hOkdr, hdlb, hdrb⟩ :
                        Ok dl ∧ Ok dr ∧ IsRed dl = false ∧
                          IsRed dr = false := by
                      cases hOkRes with
                      | red h1 h2 h3 h4 => exact ⟨h1, h2, h3, h4⟩
                    obtain ⟨hBdl, hBdr⟩ := bal_red_elim hBRes
                    have hKdd : TraverseKeys dl ++ dk :: TraverseKeys dr =
                        (TraverseKeys rl).filter (fun a => a ≠ key) ++
                          (rk :: TraverseKeys rr).filter
                            (fun a => a ≠ key) := by
                      simpa only [traverseKeys_node, List.filter_append]
                        using hKRes
                    rw [fixUp_rotateLeft hnlb hdrb]
                    simp only [Bool.false_eq_true, if_false, ite_false] at hnm
                    subst hnm
                    refine delPost_strong ?_
                      (Ok.black (Ok.red hOkl hOkdl hnlb hdlb) hOkdr hdrb)
                      (Bal.black (Bal.red hBl hBdl) hBdr) rfl
                    simp only [traverseKeys_node, hKdd, List.filter_append,
                      filter_cons_keep hnkne, eNL,
                      List.append_assoc, List.cons_append]


/-! ## Invariant preservation by the public `Delete` -/

theorem Inv_delete {t : LLTB} (key : Nat) (h : Inv t) :
    Inv (Delete t key) ∧
      TraverseKeys (Delete t key) =
        (TraverseKeys t).filter (fun a => a ≠ key) := by
  obtain ⟨hs, ho, ⟨n, hb⟩, hblack⟩ := h
  cases t with
  | nil => exact ⟨⟨by simp [Asc, Delete], Ok.nil, ⟨0, Bal.nil⟩, rfl⟩, rfl⟩
  | node nk nc nl nr =>
    have hnc : nc = false := by simpa using hblack
    subst hnc
    have hpre : preB (.node nk false nl nr) ∨ preD (.node nk false nl nr) := by
      cases hl : IsRed nl with
      | true => exact Or.inl ⟨rfl, by simpa using hl, ho⟩
      | false =>
        exact Or.inr ⟨rfl, by simpa using hl, ho.rightBlack, ho, by simp⟩
    obtain ⟨hK, hOB, hBlk, hD⟩ :=
      deleteRec_spec (LLTB.node nk false nl nr).size _ key n le_rfl hb hs
        (hpre.elim (fun h => Or.inr (Or.inl h))
          (fun h => Or.inr (Or.inr (Or.inr h))))
    have hKd : TraverseKeys (Delete (LLTB.node nk false nl nr) key) =
        (TraverseKeys (LLTB.node nk false nl nr)).filter
          (fun a => a ≠ key) := by
      show TraverseKeys (SetBlack (DeleteRec (LLTB.node nk false nl nr) key)) = _
      rw [traverseKeys_setBlack, hK]
    have hAscd : Asc (Delete (LLTB.node nk false nl nr) key) := by
      unfold Asc
      rw [hKd]
      exact hs.filter _
    rcases hpre with hB | hD'
    · obtain ⟨hOk, hBal⟩ := hOB (Or.inr (Or.inl hB))
      have hblk := hBlk (Or.inl hB)
      refine ⟨⟨hAscd, ?_, ⟨n, ?_⟩, ?_⟩, hKd⟩
      · show Ok (SetBlack (DeleteRec (LLTB.node nk false nl nr) key))
        rw [setBlack_of_black hblk]
        exact hOk
      · show Bal (SetBlack (DeleteRec (LLTB.node nk false nl nr) key)) n
        rw [setBlack_of_black hblk]
        exact hBal
      · show IsRed (SetBlack (DeleteRec (LLTB.node nk false nl nr) key)) = false
        exact isRed_setBlack _
    · obtain ⟨hT, m, hBal⟩ := hD hD'
      obtain ⟨m', hBal'⟩ := bal_setBlack hBal
      exact ⟨⟨hAscd, ok_setBlack hT, ⟨m', hBal'⟩, isRed_setBlack _⟩, hKd⟩

/-- Every tree reachable by the public mutating interface satisfies the
full invariant. -/
theorem reach_inv : ∀ {t : LLTB}, Reach t → Inv t := by
  intro t h
  induction h with
  | empty => exact ⟨by simp [Asc], Ok.nil, ⟨0, Bal.nil⟩, rfl⟩
  | ins k _ ih => exact (Inv_insert k ih).1
  | del k _ ih => exact (Inv_delete k ih).1

/-! ## Bridges from the propositional invariants to the checkers -/

theorem allKeys_eq_true {p : Nat → Bool} : ∀ {t : LLTB},
    (∀ a ∈ TraverseKeys t, p a = true) → AllKeys p t = true := by
  intro t
  induction t with
  | nil => intro _; rfl
  | node k c l r ihl ihr =>
    intro h
    simp only [AllKeys, Bool.and_eq_true]
    exact ⟨⟨h k (by simp), ihl (fun a ha => h a (by simp [ha]))⟩,
      ihr (fun a ha => h a (by simp [ha]))⟩

theorem asc_orderedB : ∀ {t : LLTB}, Asc t → OrderedB t = true := by
  intro t
  induction t with
  | nil => intro _; rfl
  | node k c l r ihl ihr =>
    intro h
    obtain ⟨hl, hr, hL, hR⟩ := asc_node h
    simp only [OrderedB, Bool.and_eq_true]
    exact ⟨⟨⟨allKeys_eq_true (fun a ha => by simpa using hL a ha),
      allKeys_eq_true (fun a ha => by simpa using hR a ha)⟩, ihl hl⟩, ihr hr⟩

theorem ok_I3B : ∀ {t : LLTB}, Ok t → I3B t = true := by
  intro t
  induction t with
  | nil => intro _; rfl
  | node k c l r ihl ihr =>
    intro h
    have hrb := h.rightBlack
    simp only [I3B, Bool.and_eq_true, Bool.or_eq_true]
    exact ⟨⟨Or.inl (by simp [hrb]), ihl h.leftOk⟩, ihr h.rightOk⟩

theorem ok_I4B : ∀ {t : LLTB}, Ok t → I4B t = true := by
  intro t
  induction t with
  | nil => intro _; rfl
  | node k c l r ihl ihr =>
    intro h
    simp only [I4B, Bool.and_eq_true]
    refine ⟨⟨?_, ihl h.leftOk⟩, ihr h.rightOk⟩
    cases hl : IsRed l with
    | false => simp [hl]
    | true => simp [hl, h.leftOk.leftBlackOfRed' hl]

theorem bal_blackCounts {t : LLTB} {n : Nat} (hb : Bal t n) :
    ∀ x ∈ BlackCounts t, x + (if IsRed t = true then 0 else 1) = n + 1 := by
  induction hb with
  | nil =>
    intro x hx
    simp only [BlackCounts, List.mem_singleton] at hx
    subst hx
    simp
  | red hl hr ihl ihr =>
    intro x hx
    simp only [BlackCounts, List.mem_append, List.mem_map] at hx
    simp only [isRed_node, if_true, ite_true, Nat.add_zero]
    rcases hx with ⟨y, hy, hxy⟩ | ⟨y, hy, hxy⟩
    · have := ihl y hy
      omega
    · have := ihr y hy
      omega
  | black hl hr ihl ihr =>
    intro x hx
    simp only [BlackCounts, List.mem_append, List.mem_map] at hx
    simp only [isRed_node, Bool.false_eq_true, if_false, ite_false]
    rcases hx with ⟨y, hy, hxy⟩ | ⟨y, hy, hxy⟩
    · have := ihl y hy
      omega
    · have := ihr y hy
      omega

theorem bal_I5B {t : LLTB} {n : Nat} (hb : Bal t n) : I5B t = true := by
  unfold I5B
  split
  · rfl
  · rename_i x rest hbc
    rw [List.all_eq_true]
    intro y hy
    have hx := bal_blackCounts hb x (by rw [hbc]; simp)
    have hyy := bal_blackCounts hb y (by rw [hbc]; simp [hy])
    simp only [decide_eq_true_eq]
    omega

/-- `FindMin` locates the least key of a sorted non-empty subtree. -/
theorem findMin_le {t : LLTB} (hs : Asc t) (hne : t ≠ .nil) :
    ∀ a ∈ TraverseKeys t, (FindMin t).key ≤ a := by
  obtain ⟨tl, htl⟩ := findMin_cons t hne
  unfold Asc at hs
  rw [htl] at hs ⊢
  rw [List.sorted_cons] at hs
  intro a ha
  rcases List.mem_cons.1 ha with h | h
  · omega
  · have := hs.1 a h
    omega

/-! ## Model correspondence for operation sequences -/

theorem runOps_aux : ∀ (ops : List Op) (t : LLTB) (s : Finset Nat),
    Inv t → (∀ a, a ∈ TraverseKeys t ↔ a ∈ s) →
    Inv (ops.foldl (fun t o => match o with
      | .ins k => Insert t k | .del k => Delete t k) t) ∧
    (∀ a, a ∈ TraverseKeys (ops.foldl (fun t o => match o with
      | .ins k => Insert t k | .del k => Delete t k) t) ↔
      a ∈ ops.foldl (fun s o => match o with
        | .ins k => insert k s | .del k => s.erase k) s) := by
  intro ops
  induction ops with
  | nil =>
    intro t s h1 h2
    exact ⟨h1, h2⟩
  | cons o rest ih =>
    intro t s h1 h2
    cases o with
    | ins k =>
      simp only [List.foldl_cons]
      obtain ⟨hInv, hkeys⟩ := Inv_insert k h1
      refine ih _ _ hInv ?_
      intro a
      rw [hkeys, mem_insKey, Finset.mem_insert, h2 a]
    | del k =>
      simp only [List.foldl_cons]
      obtain ⟨hInv, hkeys⟩ := Inv_delete k h1
      refine ih _ _ hInv ?_
      intro a
      rw [hkeys, Finset.mem_erase]
      simp only [List.mem_filter, decide_eq_true_eq, h2 a]
      tauto

/-- C1: after any sequence of public mutations from the empty tree, the
tree satisfies I1 (BST order with unique keys), I2 (black root), I3 (a red
right child implies a red left child), I4 (no red node with a red left
child), and I5 (equal black-link count on every root-to-null path). -/
theorem reach_invariants (t : LLTB) (h : Reach t) :
    OrderedB t = true ∧ IsRed t = false ∧ I3B t = true ∧ I4B t = true ∧
      I5B t = true := by
  obtain ⟨hs, ho, ⟨n, hb⟩, hblack⟩ := reach_inv h
  exact ⟨asc_orderedB hs, hblack, ok_I3B ho, ok_I4B ho, bal_I5B hb⟩

theorem reach_invariants_witness :
    Reach (Delete (Insert (Insert .nil 10) 20) 10) ∧
      (OrderedB (Delete (Insert (Insert .nil 10) 20) 10) = true ∧
        IsRed (Delete (Insert (Insert .nil 10) 20) 10) = false ∧
        I3B (Delete (Insert (Insert .nil 10) 20) 10) = true ∧
        I4B (Delete (Insert (Insert .nil 10) 20) 10) = true ∧
        I5B (Delete (Insert (Insert .nil 10) 20) 10) = true) := by
  have hr : Reach (Delete (Insert (Insert .nil 10) 20) 10) :=
    Reach.del 10 (Reach.ins 20 (Reach.ins 10 Reach.empty))
  exact ⟨hr, reach_invariants _ hr⟩

/-- C4: whenever the deletion recursion reaches the node bearing the
searched key — i.e. on the `key ≥ node.key` side, after the code's own
initial rotation (`t2`) and possible `MoveRedRight` (`t3`), the searched
key equals the frame's key — and that node has a non-null right child,
`DeleteRec` returns the fix-up of the node re-keyed with `FindMin` of its
right subtree and with that right subtree replaced by `DeleteMin` of it;
the spliced-in key is a member of the right subtree, is the least key
there, and every right-subtree key exceeds the deleted key, so it is the
in-order successor; and the public `Delete` preserves the full
invariant.  The `t2`/`t3` hypotheses are the code's own defining
equations, so every execution that performs the copy is covered,
including the ones where `MoveRedRight` fires. -/
theorem delete_copies_in_order_successor (nk : Nat) (nc : Bool)
    (nl nr : LLTB) (key : Nat) (t2 t3 : LLTB)
    (hasc : Asc (.node nk nc nl nr))
    (hge : ¬ key < nk)
    (ht2 : (if IsRed nl = true then RotateRight (.node nk nc nl nr)
      else .node nk nc nl nr) = t2)
    (hnotleaf : ¬ (key = t2.key ∧ t2.right = .nil))
    (rk : Nat) (rc : Bool) (rl rr : LLTB)
    (hr : t2.right = .node rk rc rl rr)
    (ht3 : (if (!IsRed t2.right && !IsRed t2.right.left) = true
      then MoveRedRight t2 else t2) = t3)
    (hkey : key = t3.key) :
    DeleteRec (.node nk nc nl nr) key =
      FixUp ((t3.setRight (DeleteMin t3.right)).setKey
        (FindMin t3.right).key) ∧
    (∀ (k3 : Nat) (c3 : Bool) (l3 r3 : LLTB), t3 = .node k3 c3 l3 r3 →
      r3 ≠ .nil →
      (FindMin r3).key ∈ TraverseKeys r3 ∧
      (∀ a ∈ TraverseKeys r3, (FindMin r3).key ≤ a) ∧
      (∀ a ∈ TraverseKeys r3, key < a)) ∧
    (∀ (t : LLTB) (k : Nat), Inv t → Inv (Delete t k)) := by
  have hk2keys : TraverseKeys t2 = TraverseKeys (LLTB.node nk nc nl nr) := by
    rw [← ht2]
    split
    · exact traverseKeys_rotateRight _
    · rfl
  have hk3keys : TraverseKeys t3 = TraverseKeys t2 := by
    rw [← ht3]
    split
    · exact traverseKeys_moveRedRight _
    · rfl
  have hasc3 : Asc t3 := by
    unfold Asc at hasc ⊢
    rw [hk3keys, hk2keys]
    exact hasc
  refine ⟨DeleteRec_copy hge ht2 hnotleaf hr ht3 hkey, ?_,
    fun t k h => (Inv_delete k h).1⟩
  intro k3 c3 l3 r3 heq hne
  subst heq
  obtain ⟨-, hA3r, -, hR3⟩ := asc_node hasc3
  obtain ⟨tl, htl⟩ := findMin_cons r3 hne
  have hkk : key = k3 := by simpa using hkey
  exact ⟨by rw [htl]; simp, findMin_le hA3r hne,
    fun a ha => by have := hR3 a ha; omega⟩

theorem delete_copies_in_order_successor_witness :
    Asc (.node 2 false (.node 1 false .nil .nil)
      (.node 3 false .nil .nil)) ∧
    ¬ (2 : Nat) < 2 ∧
    (if IsRed (LLTB.node 1 false .nil .nil) = true then
        RotateRight (.node 2 false (.node 1 false .nil .nil)
          (.node 3 false .nil .nil))
      else .node 2 false (.node 1 false .nil .nil)
        (.node 3 false .nil .nil)) =
      LLTB.node 2 false (.node 1 false .nil .nil)
        (.node 3 false .nil .nil) ∧
    ¬ ((2 : Nat) = (LLTB.node 2 false (.node 1 false .nil .nil)
        (.node 3 false .nil .nil)).key ∧
      (LLTB.node 2 false (.node 1 false .nil .nil)
        (.node 3 false .nil .nil)).right = LLTB.nil) ∧
    (LLTB.node 2 false (.node 1 false .nil .nil)
      (.node 3 false .nil .nil)).right = LLTB.node 3 false .nil .nil ∧
    (if (!IsRed (LLTB.node 2 false (.node 1 false .nil .nil)
          (.node 3 false .nil .nil)).right &&
        !IsRed (LLTB.node 2 false (.node 1 false .nil .nil)
          (.node 3 false .nil .nil)).right.left) = true
      then MoveRedRight (LLTB.node 2 false (.node 1 false .nil .nil)
        (.node 3 false .nil .nil))
      else LLTB.node 2 false (.node 1 false .nil .nil)
        (.node 3 false .nil .nil)) =
      LLTB.node 2 true (.node 1 true .nil .nil) (.node 3 true .nil .nil) ∧
    (2 : Nat) = (LLTB.node 2 true (.node 1 true .nil .nil)
      (.node 3 true .nil .nil)).key ∧
    (DeleteRec (.node 2 false (.node 1 false .nil .nil)
        (.node 3 false .nil .nil)) 2 =
      FixUp (((LLTB.node 2 true (.node 1 true .nil .nil)
        (.node 3 true .nil .nil)).setRight
          (DeleteMin (LLTB.node 2 true (.node 1 true .nil .nil)
            (.node 3 true .nil .nil)).right)).setKey
        (FindMin (LLTB.node 2 true (.node 1 true .nil .nil)
          (.node 3 true .nil .nil)).right).key) ∧
    (∀ (k3 : Nat) (c3 : Bool) (l3 r3 : LLTB),
      LLTB.node 2 true (.node 1 true .nil .nil) (.node 3 true .nil .nil) =
        .node k3 c3 l3 r3 → r3 ≠ .nil →
      (FindMin r3).key ∈ TraverseKeys r3 ∧
      (∀ a ∈ TraverseKeys r3, (FindMin r3).key ≤ a) ∧
      (∀ a ∈ TraverseKeys r3, 2 < a)) ∧
    (∀ (t : LLTB) (k : Nat), Inv t → Inv (Delete t k))) := by
  refine ⟨by unfold Asc; decide, by decide, by decide, by decide, rfl,
    by decide, rfl, ?_⟩
  exact delete_copies_in_order_successor 2 false
    (.node 1 false .nil .nil) (.node 3 false .nil .nil) 2
    (.node 2 false (.node 1 false .nil .nil) (.node 3 false .nil .nil))
    (.node 2 true (.node 1 true .nil .nil) (.node 3 true .nil .nil))
    (by unfold Asc; decide) (by decide) (by decide) (by decide)
    3 false .nil .nil rfl (by decide) rfl

/-- C5 (amended): deleting an absent key preserves the in-order key
sequence and the full invariant (though not necessarily the exact node
structure), and `Delete` on the empty tree is a no-op; the public
`Delete` returns `void`, so no was-present indicator exists. -/
theorem delete_absent_preserves (t : LLTB) (key : Nat) (h : Inv t)
    (hmem : key ∉ TraverseKeys t) :
    TraverseKeys (Delete t key) = TraverseKeys t ∧ Inv (Delete t key) ∧
      Delete .nil key = .nil := by
  obtain ⟨hInv, hkeys⟩ := Inv_delete key h
  refine ⟨?_, hInv, rfl⟩
  rw [hkeys]
  exact filter_keep (fun a ha hak => hmem (hak ▸ ha))

theorem delete_absent_preserves_witness :
    Inv (LLTB.node 5 false .nil .nil) ∧
    (3 : Nat) ∉ TraverseKeys (LLTB.node 5 false .nil .nil) ∧
    (TraverseKeys (Delete (LLTB.node 5 false .nil .nil) 3) =
      TraverseKeys (LLTB.node 5 false .nil .nil) ∧
      Inv (Delete (LLTB.node 5 false .nil .nil) 3) ∧
      Delete .nil 3 = .nil) := by
  have hInv : Inv (LLTB.node 5 false .nil .nil) :=
    ⟨by unfold Asc; decide, Ok.black Ok.nil Ok.nil rfl,
      ⟨1, Bal.black Bal.nil Bal.nil⟩, rfl⟩
  exact ⟨hInv, by decide, delete_absent_preserves _ 3 hInv (by decide)⟩

/-- C6: for every operation sequence, the in-order key sequence emitted by
the traversal is strictly ascending, and its members are exactly the keys
inserted and not subsequently deleted. -/
theorem traverse_sorted_and_model (ops : List Op) :
    List.Sorted (· < ·) (TraverseKeys (RunOps ops)) ∧
      (∀ a, a ∈ TraverseKeys (RunOps ops) ↔ a ∈ ModelKeys ops) := by
  have h := runOps_aux ops .nil ∅
    ⟨by simp [Asc], Ok.nil, ⟨0, Bal.nil⟩, rfl⟩ (by intro a; simp)
  exact ⟨h.1.1, h.2⟩

/-- C7: re-inserting a key that is already bound returns a tree equal to
the one after the first insertion; in particular the node count is
unchanged by the second call. -/
theorem insert_upsert_idempotent (t : LLTB) (k : Nat) (h : Reach t) :
    Insert (Insert t k) k = Insert t k ∧
      (Insert (Insert t k) k).size = (Insert t k).size := by
  have heq := insert_insert_of_inv k (reach_inv h)
  exact ⟨heq, by rw [heq]⟩

theorem insert_upsert_idempotent_witness :
    Reach (.nil : LLTB) ∧
      (Insert (Insert .nil 5) 5 = Insert .nil 5 ∧
        (Insert (Insert .nil 5) 5).size = (Insert .nil 5).size) :=
  ⟨Reach.empty, insert_upsert_idempotent .nil 5 Reach.empty⟩

/-! ## Claim theorems: the quickly decidable ones -/

/-- C2: refuted — `LookUp` never returns a found value.  The loop follows
`left` on `key < N.key` and `right` otherwise (never stopping on equality)
and returns the null pointer when a null link is reached, so it returns the
not-found sentinel for every tree and key — also when the key is present,
as the concrete run on the one-node tree `{5}` shows. -/
theorem LookUpAlwaysNone :
    (∀ (t : LLTB) (k : Nat), LookUp t k = none) ∧
      TraverseKeys (Insert .nil 5) = [5] ∧ LookUp (Insert .nil 5) 5 = none := by
  refine ⟨fun t k => ?_, by decide, by decide⟩
  induction t with
  | nil => rfl
  | node nk nc l r ihl ihr =>
    show (if k < nk then LookUp l k else LookUp r k) = none
    split
    · exact ihl
    · exact ihr

/-- C3: every frame of `InsertRec` on a non-null node first updates the
payload or one child link, then applies the fix-up triple — (a) rotate-left
if the right child is red and the left is not, then (b) rotate-right if the
left child and its left child are red, then (c) color-flip if both children
are red — and returns the resulting subtree root. -/
theorem insertRec_applies_fixup_triple :
    ∀ (nk : Nat) (nc : Bool) (nl nr : LLTB) (k : Nat),
      InsertRec (.node nk nc nl nr) k =
        InsertFixupTriple
          (if k = nk then .node k nc nl nr
           else if k < nk then .node nk nc (InsertRec nl k) nr
           else .node nk nc nl (InsertRec nr k)) := by
  intro nk nc nl nr k
  rfl

/-- C8 (counterexample): `Insert` does not distinguish a fresh insertion
from a replacement — it returns `true` in both cases: inserting key 1 into
the empty tree (fresh) and inserting key 1 again (replacement) return the
same indicator, and no prior value is ever reported. -/
theorem insertReturn_no_distinction :
    InsertReturn .nil 1 = true ∧ InsertReturn (Insert .nil 1) 1 = true ∧
      InsertReturn (Insert .nil 1) 1 = InsertReturn .nil 2 :=
  ⟨rfl, rfl, rfl⟩

/-- C8 (amended): the public `Insert` unconditionally returns `true`,
whether the key was fresh or already bound. -/
theorem insertReturn_always_true :
    ∀ (t : LLTB) (k : Nat), InsertReturn t k = true := fun _ _ => rfl

/-- C9: refuted by the code — `Free` nulls the local pointer before
`delete`, so no node is ever deallocated: the list of freed nodes is empty
for every tree (instead of containing every reachable node exactly once).
Only the second half of the claim holds: `FreeAll` does set the root link
to null. -/
theorem freeAll_releases_nothing :
    ∀ t : LLTB, FreeAll t = (.nil, []) ∧ FreedKeys t = [] := by
  have h : ∀ t : LLTB, FreedKeys t = [] := by
    intro t
    induction t with
    | nil => rfl
    | node k c l r ihl ihr =>
      show FreedKeys l ++ FreedKeys r ++ [] = []
      rw [ihl, ihr]
      rfl
  intro t
  exact ⟨by rw [FreeAll, h t], h t⟩

/-- C10: `FindParent` is unsafe.  On the reachable tree built by
`Insert 10; Insert 20` — a black root 20 with a red left child 10 and a
null right child — searching any key other than 10 reads the null right
child's key field: in particular key 15, which lies strictly between the
child 10 and the node 20, makes the traversal fault instead of locating a
parent.  And the public `Insert` invokes `FindParent` exactly when the
inserted key differs from the root key after rebalancing, as when key 5 is
inserted into that tree. -/
theorem findParent_unsafe_and_called_by_insert :
    FindParentE (Insert (Insert .nil 10) 20) 15 = .error () ∧
      FindParentE (Insert (Insert .nil 10) 20) 99 = .error () ∧
      InsertInvokesFindParent (Insert (Insert .nil 10) 20) 5 = true ∧
      (∀ (t : LLTB) (k : Nat),
        InsertInvokesFindParent t k = !((Insert t k).key = k)) :=
  ⟨rfl, rfl, by decide, fun _ _ => rfl⟩

/-- C5 (counterexample): deleting an absent key does not always leave the
tree unchanged.  After inserting 5, 0, 4, 1, 2, 3, the key 6 is absent,
yet `Delete 6` restructures the tree. -/
theorem delete_absent_not_identity :
    6 ∉ TraverseKeys
        (Insert (Insert (Insert (Insert (Insert (Insert .nil 5) 0) 4) 1) 2) 3) ∧
    Delete (Insert (Insert (Insert (Insert (Insert (Insert .nil 5) 0) 4) 1) 2) 3) 6
      ≠ Insert (Insert (Insert (Insert (Insert (Insert .nil 5) 0) 4) 1) 2) 3 := by
  constructor
  · decide
  · simp [Delete, DeleteRec.eq_def, DeleteMin.eq_def, MoveRedLeft, MoveRedRight, FixUp,
      Insert, InsertRec, SetBlack, NewNode, RotateLeft, RotateRight, ColorFlip, ToggleColor,
      IsRed, LLTB.left, LLTB.right, LLTB.key, LLTB.setLeft, LLTB.setRight, LLTB.setKey,
      FindMin]

end LLRB
